import Mathlib

/-!
Shallow embedding of the HTML-to-paragraph text normalizer of
`src/App.js` (`htmlToParagraphs`, `joinParagraphs`).

Strings are modelled as `List Char`; each JavaScript
`s.replace(/pattern/g, rep)` is modelled as a left-to-right scan that, at
every position, either fires the (faithfully translated) pattern matcher
and emits its replacement, or copies one character.  The scans are
implemented with an explicit fuel argument (fuel = length of the list) so
that they are structurally recursive and evaluate inside the kernel.
-/

namespace Koln

/-- The set of characters matched by the JavaScript regex class `\s` and
removed by `String.prototype.trim` (WhiteSpace ∪ LineTerminator). -/
def isJsSpace (c : Char) : Bool :=
  c = ' ' || c = '\t' || c = '\n' || c = '\r' || c = '\x0b' || c = '\x0c' ||
  c = '\u00A0' || c = '\u1680' || ('\u2000' ≤ c && c ≤ '\u200A') ||
  c = '\u2028' || c = '\u2029' || c = '\u202F' || c = '\u205F' ||
  c = '\u3000' || c = '\uFEFF'

/-- Case-insensitive match of a (lowercase) pattern against a prefix of the
input, as performed by a `/.../i` JavaScript regex on ASCII patterns. -/
def matchCIList : List Char → List Char → Bool
  | [], _ => true
  | _ :: _, [] => false
  | p :: ps, c :: cs => (c.toLower == p) && matchCIList ps cs

/-- First index (if any) at which the lowercase pattern `pat` occurs
case-insensitively. -/
def findCIidx (pat : List Char) : List Char → Option Nat
  | [] => if matchCIList pat [] then some 0 else none
  | c :: rest =>
    if matchCIList pat (c :: rest) then some 0
    else (findCIidx pat rest).map (· + 1)

/-- A pattern matcher: given the current suffix of the input, returns
`some (n, rep)` when the regex matches a prefix of length `n` (always
`n ≥ 1`), to be replaced by `rep`. -/
abbrev Matcher := List Char → Option (Nat × List Char)

/-- One global-replace pass, the semantics of `s.replace(/re/g, rep)`:
scan left to right; at each position either fire the leftmost match and
continue after it, or copy one character. -/
def replaceScanGo (m : Matcher) (fuel : Nat) (l : List Char) : List Char :=
  match fuel, l with
  | _, [] => []
  | 0, c :: rest => c :: rest
  | fuel + 1, c :: rest =>
    match m (c :: rest) with
    | some (n, rep) => rep ++ replaceScanGo m fuel (List.drop (n - 1) rest)
    | none => c :: replaceScanGo m fuel rest

def replaceScan (m : Matcher) (l : List Char) : List Char :=
  replaceScanGo m l.length l

/-- Matcher for a case-insensitive literal pattern (regexes such as
`/&nbsp;/gi`); `pat` is given in lowercase. -/
def mLit (pat rep : List Char) : Matcher := fun l =>
  if matchCIList pat l then some (pat.length, rep) else none

/-- Matcher for `/<script[\s\S]*?>[\s\S]*?<\/script>/gi` (and the `style`
analogue): the lazy quantifiers take the first `>` after the opening
pattern and then the first case-insensitive occurrence of the closing
pattern after that `>`. -/
def mBlock (openPat closePat : List Char) : Matcher := fun l =>
  if matchCIList openPat l then
    let rest := l.drop openPat.length
    match List.findIdx? (fun c => c == '>') rest with
    | none => none
    | some j =>
      match findCIidx closePat (rest.drop (j + 1)) with
      | none => none
      | some k => some (openPat.length + j + 1 + k + closePat.length, [])
  else none

/-- Matcher for `/<br\s*\/?>/gi`. -/
def mBr : Matcher := fun l =>
  if matchCIList ['<', 'b', 'r'] l then
    let rest := l.drop 3
    let w := (rest.takeWhile isJsSpace).length
    match rest.drop w with
    | '>' :: _ => some (3 + w + 1, ['\n'])
    | '/' :: '>' :: _ => some (3 + w + 2, ['\n'])
    | _ => none
  else none

/-- Matcher for `/<\/h[1-6]>/gi`. -/
def mCloseH : Matcher := fun l =>
  match l with
  | '<' :: '/' :: c :: d :: '>' :: _ =>
    if c.toLower == 'h' && '1' ≤ d && d ≤ '6' then some (5, ['\n', '\n'])
    else none
  | _ => none

/-- Matcher for `/<p[^>]*>/gi` and `/<div[^>]*>/gi` (`namePat` is `<p`
resp. `<div`): the greedy `[^>]*` takes the maximal run of non-`>`
characters, which must be followed by `>`. -/
def mOpenTag (namePat : List Char) : Matcher := fun l =>
  if matchCIList namePat l then
    let rest := l.drop namePat.length
    let w := (rest.takeWhile (fun c => c != '>')).length
    match rest.drop w with
    | '>' :: _ => some (namePat.length + w + 1, [])
    | _ => none
  else none

/-- Matcher for `/<h[1-6][^>]*>/gi`. -/
def mOpenH : Matcher := fun l =>
  match l with
  | '<' :: c :: d :: rest =>
    if c.toLower == 'h' && '1' ≤ d && d ≤ '6' then
      let w := (rest.takeWhile (fun x => x != '>')).length
      match rest.drop w with
      | '>' :: _ => some (3 + w + 1, [])
      | _ => none
    else none
  | _ => none

/-- Matcher for the generic tag-stripping regex `/<[^>]+>/g`. -/
def mTag : Matcher := fun l =>
  match l with
  | '<' :: rest =>
    let w := (rest.takeWhile (fun c => c != '>')).length
    if 1 ≤ w then
      match rest.drop w with
      | '>' :: _ => some (1 + w + 1, [])
      | _ => none
    else none
  | _ => none

/-- Matcher for `/#\d{2,}/g`. -/
def mHash : Matcher := fun l =>
  match l with
  | '#' :: rest =>
    let w := (rest.takeWhile (fun c => c.isDigit)).length
    if 2 ≤ w then some (1 + w, []) else none
  | _ => none

/-- Matcher for `/&{2,}/g` (replaced by a single `&`). -/
def mAmps : Matcher := fun l =>
  match l with
  | '&' :: rest =>
    let w := 1 + (rest.takeWhile (fun c => c == '&')).length
    if 2 ≤ w then some (w, ['&']) else none
  | _ => none

/-- Matcher for `/\r/g` (deleted). -/
def mCR : Matcher := fun l =>
  match l with
  | '\r' :: _ => some (1, [])
  | _ => none

/-- Matcher for `/\t/g` (replaced by a space). -/
def mTab : Matcher := fun l =>
  match l with
  | '\t' :: _ => some (1, [' '])
  | _ => none

/-- Matcher for `/ {2,}/g` (replaced by a single space). -/
def mSpaces : Matcher := fun l =>
  match l with
  | ' ' :: rest =>
    let w := 1 + (rest.takeWhile (fun c => c == ' ')).length
    if 2 ≤ w then some (w, [' ']) else none
  | _ => none

/-- Matcher for `/\n{3,}/g` (replaced by exactly two newlines). -/
def mNewlines : Matcher := fun l =>
  match l with
  | '\n' :: rest =>
    let w := 1 + (rest.takeWhile (fun c => c == '\n')).length
    if 3 ≤ w then some (w, ['\n', '\n']) else none
  | _ => none

/-! The individual rewrite stages, one per `s.replace(...)` line of
`htmlToParagraphs` in `src/App.js`, in source order. -/

def replNbsp (l : List Char) : List Char :=
  replaceScan (mLit ['&', 'n', 'b', 's', 'p', ';'] [' ']) l

def replAmp (l : List Char) : List Char :=
  replaceScan (mLit ['&', 'a', 'm', 'p', ';'] ['&']) l

def replApos (l : List Char) : List Char :=
  replaceScan (mLit ['&', '#', '3', '9', ';'] ['\'']) l

def replQuot (l : List Char) : List Char :=
  replaceScan (mLit ['&', 'q', 'u', 'o', 't', ';'] ['"']) l

def replLt (l : List Char) : List Char :=
  replaceScan (mLit ['&', 'l', 't', ';'] ['<']) l

def replGt (l : List Char) : List Char :=
  replaceScan (mLit ['&', 'g', 't', ';'] ['>']) l

def removeScripts (l : List Char) : List Char :=
  replaceScan (mBlock ['<', 's', 'c', 'r', 'i', 'p', 't']
    ['<', '/', 's', 'c', 'r', 'i', 'p', 't', '>']) l

def removeStyles (l : List Char) : List Char :=
  replaceScan (mBlock ['<', 's', 't', 'y', 'l', 'e']
    ['<', '/', 's', 't', 'y', 'l', 'e', '>']) l

def replBr (l : List Char) : List Char := replaceScan mBr l

def replCloseP (l : List Char) : List Char :=
  replaceScan (mLit ['<', '/', 'p', '>'] ['\n', '\n']) l

def replCloseDiv (l : List Char) : List Char :=
  replaceScan (mLit ['<', '/', 'd', 'i', 'v', '>'] ['\n', '\n']) l

def replCloseH (l : List Char) : List Char := replaceScan mCloseH l

def removeOpenP (l : List Char) : List Char :=
  replaceScan (mOpenTag ['<', 'p']) l

def removeOpenDiv (l : List Char) : List Char :=
  replaceScan (mOpenTag ['<', 'd', 'i', 'v']) l

def removeOpenH (l : List Char) : List Char := replaceScan mOpenH l

def stripTags (l : List Char) : List Char := replaceScan mTag l

def stripHashCodes (l : List Char) : List Char := replaceScan mHash l

def collapseAmps (l : List Char) : List Char := replaceScan mAmps l

def stripCR (l : List Char) : List Char := replaceScan mCR l

def replaceTabs (l : List Char) : List Char := replaceScan mTab l

def collapseSpaces (l : List Char) : List Char := replaceScan mSpaces l

def collapseNewlines (l : List Char) : List Char := replaceScan mNewlines l

/-- `String.prototype.trim`: strip `isJsSpace` characters from both ends. -/
def trimP (l : List Char) : List Char :=
  ((l.dropWhile isJsSpace).reverse.dropWhile isJsSpace).reverse

/-- `s.split(/\n{2,}/)`: split on each maximal run of two or more
newlines. -/
def splitNNGo (fuel : Nat) (l : List Char) : List (List Char) :=
  match fuel, l with
  | _, [] => [[]]
  | 0, c :: rest => [c :: rest]
  | fuel + 1, c :: rest =>
    if c = '\n' ∧ rest.head? = some '\n' then
      [] :: splitNNGo fuel (rest.drop (rest.takeWhile (fun x => x = '\n')).length)
    else
      match splitNNGo fuel rest with
      | [] => [[c]]
      | seg :: segs => (c :: seg) :: segs

def splitNN (l : List Char) : List (List Char) := splitNNGo l.length l

/-- The rewrite pipeline of `htmlToParagraphs` before splitting (source
lines 51-91), one `let` per `s.replace(...)` line plus the final trim. -/
def cleanedText (input : List Char) : List Char :=
  let s := replNbsp input
  let s := replAmp s
  let s := replApos s
  let s := replQuot s
  let s := replLt s
  let s := replGt s
  let s := removeScripts s
  let s := removeStyles s
  let s := replBr s
  let s := replCloseP s
  let s := replCloseDiv s
  let s := replCloseH s
  let s := removeOpenP s
  let s := removeOpenDiv s
  let s := removeOpenH s
  let s := stripTags s
  let s := stripHashCodes s
  let s := collapseAmps s
  let s := stripCR s
  let s := replaceTabs s
  let s := collapseSpaces s
  let s := collapseNewlines s
  trimP s

/-- The full pipeline of `htmlToParagraphs` on character lists: the early
return for falsy input, the rewrite pipeline, then the split on runs of
two or more newlines with per-segment trim and discarding of empties. -/
def htmlToParagraphsL (input : List Char) : List (List Char) :=
  if input = [] then []
  else ((splitNN (cleanedText input)).map trimP).filter (fun p => !p.isEmpty)

/-- `htmlToParagraphs` on Lean strings. -/
def htmlToParagraphs (input : String) : List String :=
  (htmlToParagraphsL input.data).map (fun p => String.mk p)

/-- The JavaScript signature is `htmlToParagraphs(input = "")`: a missing
(`undefined`) argument defaults to `""`, and any falsy input (`""`,
`undefined`) takes the early-return branch. -/
def htmlToParagraphsOpt (input : Option String) : List String :=
  htmlToParagraphs (input.getD "")

/-- `joinParagraphs`: `htmlToParagraphs(input).join("\n\n")`. -/
def joinParagraphs (input : String) : String :=
  String.mk (List.intercalate ['\n', '\n']
    ((htmlToParagraphs input).map String.data))

/-- The character list of a string literal. -/
def chars (s : String) : List Char := s.data

/-- Written from the spec's words for the refinement claim about
`joinParagraphs`: "normalize(raw) paragraphs concatenated with a
double-newline separator". -/
def specJoinParagraphs : List (List Char) → List Char
  | [] => []
  | [p] => p
  | p :: q :: rest => p ++ '\n' :: '\n' :: specJoinParagraphs (q :: rest)

/-! ### Generic facts about characters and the scan combinator -/

theorem toNat_ofNat_valid (n : Nat) (h : n.isValidChar) :
    (Char.ofNat n).toNat = n := by
  simp only [Char.ofNat, h, dif_pos, Char.ofNatAux, Char.toNat]
  rfl

theorem toLower_eq_self_or_letter (c : Char) :
    c.toLower = c ∨ (97 ≤ c.toLower.toNat ∧ c.toLower.toNat ≤ 122) := by
  unfold Char.toLower
  by_cases h : c.toNat ≥ 65 ∧ c.toNat ≤ 90
  · refine Or.inr ?_
    rw [if_pos h, toNat_ofNat_valid]
    · omega
    · exact Or.inl (by omega)
  · exact Or.inl (by rw [if_neg h])

/-- If `d` is not a lowercase ASCII letter, the only character whose
JavaScript case-folding equals `d` is `d` itself. -/
theorem eq_of_toLower_eq (c d : Char) (hd : ¬(97 ≤ d.toNat ∧ d.toNat ≤ 122))
    (h : c.toLower = d) : c = d := by
  rcases toLower_eq_self_or_letter c with h' | h'
  · rw [← h', h]
  · exact absurd (h ▸ h') hd

/-- The fuel argument of `replaceScanGo` is irrelevant once it dominates
the length of the input. -/
theorem replaceScanGo_irrel (m : Matcher) :
    ∀ (fuel fuel' : Nat) (l : List Char), l.length ≤ fuel → l.length ≤ fuel' →
      replaceScanGo m fuel l = replaceScanGo m fuel' l := by
  intro fuel
  induction fuel using Nat.strong_induction_on with
  | _ fuel ih =>
    intro fuel' l hf hf'
    match l with
    | [] =>
      cases fuel <;> cases fuel' <;> rfl
    | c :: rest =>
      simp only [List.length_cons] at hf hf'
      obtain ⟨f, rfl⟩ : ∃ f, fuel = f + 1 := ⟨fuel - 1, by omega⟩
      obtain ⟨f', rfl⟩ : ∃ f', fuel' = f' + 1 := ⟨fuel' - 1, by omega⟩
      simp only [replaceScanGo]
      cases hm : m (c :: rest) with
      | none =>
        have := ih f (by omega) f' rest (by omega) (by omega)
        rw [this]
      | some p =>
        obtain ⟨n, rep⟩ := p
        have hlen : (List.drop (n - 1) rest).length ≤ rest.length := by
          simp [List.length_drop]
        have := ih f (by omega) f' (List.drop (n - 1) rest)
          (by omega) (by omega)
        simp only [this]

theorem replaceScan_nil (m : Matcher) : replaceScan m [] = [] := rfl

theorem replaceScan_cons_none (m : Matcher) (c : Char) (rest : List Char)
    (h : m (c :: rest) = none) :
    replaceScan m (c :: rest) = c :: replaceScan m rest := by
  unfold replaceScan
  simp only [List.length_cons, replaceScanGo, h]

theorem replaceScan_cons_some (m : Matcher) (c : Char) (rest : List Char)
    (n : Nat) (rep : List Char) (h : m (c :: rest) = some (n, rep)) :
    replaceScan m (c :: rest) = rep ++ replaceScan m (List.drop (n - 1) rest) := by
  unfold replaceScan
  simp only [List.length_cons, replaceScanGo, h]
  congr 1
  exact replaceScanGo_irrel m rest.length (List.drop (n - 1) rest).length _
    (by simp [List.length_drop]) le_rfl

/-- If the matcher fires at no nonempty suffix, the scan is the
identity. -/
theorem replaceScan_eq_self (m : Matcher) (l : List Char)
    (h : ∀ t, t <:+ l → t ≠ [] → m t = none) : replaceScan m l = l := by
  induction l with
  | nil => rfl
  | cons c rest ih =>
    rw [replaceScan_cons_none m c rest
      (h (c :: rest) (List.suffix_refl _) (by simp))]
    rw [ih (fun t ht hne => h t (ht.trans (List.suffix_cons c rest)) hne)]

/-- If the matcher fires at no nonempty suffix that starts inside `l`,
scanning `l ++ t` copies `l` verbatim and continues with `t`. -/
theorem replaceScan_append (m : Matcher) (l t : List Char)
    (h : ∀ u, u <:+ l → u ≠ [] → m (u ++ t) = none) :
    replaceScan m (l ++ t) = l ++ replaceScan m t := by
  induction l with
  | nil => rfl
  | cons c rest ih =>
    have h0 : m ((c :: rest) ++ t) = none :=
      h (c :: rest) (List.suffix_refl _) (by simp)
    rw [List.cons_append, replaceScan_cons_none m c (rest ++ t) h0]
    rw [ih (fun u hu hne => h u (hu.trans (List.suffix_cons c rest)) hne)]
    simp

/-- Every character of a scan's output comes from the input or from some
replacement string. -/
theorem mem_replaceScanGo (m : Matcher) (S : List Char)
    (hrep : ∀ t n rep, m t = some (n, rep) → ∀ x ∈ rep, x ∈ S) :
    ∀ (fuel : Nat) (l : List Char) (x : Char),
      x ∈ replaceScanGo m fuel l → x ∈ l ∨ x ∈ S := by
  intro fuel
  induction fuel with
  | zero =>
    intro l x hx
    cases l <;> simp_all [replaceScanGo]
  | succ f ih =>
    intro l x hx
    match l with
    | [] => simp [replaceScanGo] at hx
    | c :: rest =>
      simp only [replaceScanGo] at hx
      cases hm : m (c :: rest) with
      | none =>
        rw [hm] at hx
        rcases List.mem_cons.mp hx with rfl | hx'
        · exact Or.inl (List.mem_cons_self _ _)
        · rcases ih rest x hx' with h' | h'
          · exact Or.inl (List.mem_cons_of_mem _ h')
          · exact Or.inr h'
      | some p =>
        obtain ⟨n, rep⟩ := p
        rw [hm] at hx
        rcases List.mem_append.mp hx with h' | h'
        · exact Or.inr (hrep _ _ _ hm x h')
        · rcases ih _ x h' with h'' | h''
          · exact Or.inl (List.mem_cons_of_mem _ (List.mem_of_mem_drop h''))
          · exact Or.inr h''

theorem mem_replaceScan (m : Matcher) (S : List Char)
    (hrep : ∀ t n rep, m t = some (n, rep) → ∀ x ∈ rep, x ∈ S)
    (l : List Char) (x : Char) (hx : x ∈ replaceScan m l) : x ∈ l ∨ x ∈ S :=
  mem_replaceScanGo m S hrep l.length l x hx

/-- Strong append decomposition: if the matcher gives the same verdict on
every nonempty suffix of `l` whether or not `t` is appended, with any match
confined to `l`, and never fires inside `t`, then the scan distributes
over the append. -/
theorem replaceScan_append_confined_bounded (m : Matcher) :
    ∀ (N : Nat) (l t : List Char), l.length ≤ N →
      (∀ u, u <:+ t → u ≠ [] → m u = none) →
      (∀ u, u <:+ l → u ≠ [] → m (u ++ t) = m u ∧
        ∀ n rep, m u = some (n, rep) → n ≤ u.length) →
      replaceScan m (l ++ t) = replaceScan m l ++ t := by
  intro N
  induction N with
  | zero =>
    intro l t hl h2 _
    have hnil : l = [] := by cases l <;> simp_all
    subst hnil
    simpa using replaceScan_eq_self m t h2
  | succ N ih =>
    intro l t hl h2 h1
    match l with
    | [] => simpa using replaceScan_eq_self m t h2
    | c :: rest =>
      obtain ⟨hsame, hbound⟩ := h1 (c :: rest) (List.suffix_refl _) (by simp)
      cases hm : m (c :: rest) with
      | none =>
        have hmt : m ((c :: rest) ++ t) = none := by rw [hsame, hm]
        rw [List.cons_append] at hmt
        rw [List.cons_append, replaceScan_cons_none m c (rest ++ t) hmt,
          replaceScan_cons_none m c rest hm,
          ih rest t (by simpa using hl) h2
            (fun u hu hne => h1 u (hu.trans (List.suffix_cons c rest)) hne)]
        simp
      | some p =>
        obtain ⟨n, rep⟩ := p
        have hmt : m ((c :: rest) ++ t) = some (n, rep) := by rw [hsame, hm]
        rw [List.cons_append] at hmt
        have hn : n ≤ rest.length + 1 := by
          simpa using hbound n rep hm
        rw [List.cons_append, replaceScan_cons_some m c (rest ++ t) n rep hmt,
          replaceScan_cons_some m c rest n rep hm,
          List.drop_append_of_le_length (by omega),
          ih (List.drop (n - 1) rest) t
            (by simp only [List.length_drop]
                simp only [List.length_cons] at hl
                omega) h2
            (fun u hu hne => h1 u
              (hu.trans ((List.drop_suffix _ _).trans (List.suffix_cons c rest))) hne)]
        simp

theorem replaceScan_append_confined (m : Matcher) (l t : List Char)
    (h2 : ∀ u, u <:+ t → u ≠ [] → m u = none)
    (h1 : ∀ u, u <:+ l → u ≠ [] → m (u ++ t) = m u ∧
      ∀ n rep, m u = some (n, rep) → n ≤ u.length) :
    replaceScan m (l ++ t) = replaceScan m l ++ t :=
  replaceScan_append_confined_bounded m l.length l t le_rfl h2 h1

theorem matchCIList_cons_false (p : Char) (ps : List Char) (c : Char)
    (cs : List Char) (h : ¬ c.toLower = p) :
    matchCIList (p :: ps) (c :: cs) = false := by
  simp [matchCIList, h]

/-- `takeWhile`/`dropWhile` on a list whose prefix satisfies `p` and whose
next element fails it. -/
theorem takeWhile_dropWhile_exact (p : Char → Bool) (a : List Char)
    (x : Char) (b : List Char) (ha : ∀ c ∈ a, p c = true) (hx : p x = false) :
    (a ++ x :: b).takeWhile p = a ∧ (a ++ x :: b).dropWhile p = x :: b := by
  induction a with
  | nil => simp [List.takeWhile, List.dropWhile, hx]
  | cons c a' ih =>
    have hc : p c = true := ha c (by simp)
    have := ih (fun d hd => ha d (by simp [hd]))
    simp [List.takeWhile, List.dropWhile, hc, this.1, this.2]

theorem takeWhile_all (p : Char → Bool) (l : List Char)
    (h : ∀ x ∈ l, p x = true) : l.takeWhile p = l := by
  induction l with
  | nil => rfl
  | cons c rest ih =>
    simp [List.takeWhile, h c (by simp), ih (fun x hx => h x (by simp [hx]))]

theorem dropWhile_head_false (p : Char → Bool) (l : List Char) (x : Char)
    (xs : List Char) (h : l.dropWhile p = x :: xs) : p x = false := by
  induction l with
  | nil => simp [List.dropWhile] at h
  | cons c rest ih =>
    rw [List.dropWhile_cons] at h
    by_cases hc : p c = true
    · exact ih (by simpa [hc] using h)
    · simp only [Bool.not_eq_true] at hc
      simp [hc] at h
      rw [← h.1]; exact hc

theorem findIdx?_first (p : Char → Bool) (a : List Char) (y : Char)
    (b : List Char) (ha : ∀ x ∈ a, p x = false) (hy : p y = true) :
    List.findIdx? p (a ++ y :: b) = some a.length := by
  induction a with
  | nil => simp [List.findIdx?_cons, hy]
  | cons c a' ih =>
    have hc : p c = false := ha c (by simp)
    simp [List.findIdx?_cons, hc, ih (fun x hx => ha x (by simp [hx]))]

/-- A pattern consisting of case-fixed characters matches itself (plus any
continuation) case-insensitively. -/
theorem matchCIList_self (pat x : List Char) (h : ∀ c ∈ pat, c.toLower = c) :
    matchCIList pat (pat ++ x) = true := by
  induction pat with
  | nil => rfl
  | cons c ps ih =>
    simp [matchCIList, h c (by simp), ih (fun d hd => h d (by simp [hd]))]

theorem findCIidx_of_match (pat b : List Char)
    (hb : matchCIList pat b = true) : findCIidx pat b = some 0 := by
  cases b <;> simp [findCIidx, hb]

theorem findCIidx_append (pat a b : List Char)
    (ha : ∀ u, u <:+ a → u ≠ [] → matchCIList pat (u ++ b) = false)
    (hb : matchCIList pat b = true) :
    findCIidx pat (a ++ b) = some a.length := by
  induction a with
  | nil => simpa using findCIidx_of_match pat b hb
  | cons c a' ih =>
    have h0 : matchCIList pat ((c :: a') ++ b) = false :=
      ha (c :: a') (List.suffix_refl _) (by simp)
    rw [List.cons_append] at h0 ⊢
    simp only [findCIidx, h0]
    rw [ih (fun u hu hne => ha u (hu.trans (List.suffix_cons c a')) hne)]
    simp

theorem intercalate_nn_eq_specJoin (ps : List (List Char)) :
    List.intercalate ['\n', '\n'] ps = specJoinParagraphs ps := by
  induction ps with
  | nil => rfl
  | cons p rest ih =>
    cases rest with
    | nil => simp [specJoinParagraphs, List.intercalate]
    | cons q rest' =>
      have step : List.intercalate ['\n', '\n'] (p :: q :: rest') =
          p ++ ['\n', '\n'] ++ List.intercalate ['\n', '\n'] (q :: rest') := by
        simp [List.intercalate, List.intersperse_cons_cons]
      rw [step, ih]
      simp [specJoinParagraphs]

/-! ### Facts about the individual matchers -/

theorem mTag_none_of_head (c : Char) (tail : List Char) (h : c ≠ '<') :
    mTag (c :: tail) = none := by
  unfold mTag
  split
  · rename_i rest heq
    injection heq with h1 _
    exact absurd h1 h
  · rfl

theorem mTag_none_of_no_gt (u : List Char) (h : ∀ c ∈ u, c ≠ '>') :
    mTag ('<' :: u) = none := by
  have htw : u.takeWhile (fun c => c != '>') = u :=
    takeWhile_all _ u (fun x hx => by simpa using h x hx)
  unfold mTag
  split
  · rename_i rest heq
    injection heq with _ h2
    subst h2
    simp only [htw]
    cases u with
    | nil => simp
    | cons a u' =>
      rw [if_pos (by simp)]
      simp [List.drop_length]
  · rfl

theorem mTag_lt_gt (rest : List Char) : mTag ('<' :: '>' :: rest) = none := by
  unfold mTag
  split
  · rename_i r heq
    injection heq with _ h2
    subst h2
    simp [List.takeWhile]
  · rfl

theorem mTag_eq_of_shape (a b : List Char) (ha : ∀ c ∈ a, c ≠ '>')
    (hne : a ≠ []) :
    mTag ('<' :: (a ++ '>' :: b)) = some (1 + a.length + 1, []) := by
  have htw : (a ++ '>' :: b).takeWhile (fun c => c != '>') = a :=
    (takeWhile_dropWhile_exact _ a '>' b (fun c hc => by simpa using ha c hc)
      (by simp)).1
  unfold mTag
  split
  · rename_i rest heq
    injection heq with _ h2
    subst h2
    simp only [htw]
    rw [if_pos (by cases a with | nil => exact absurd rfl hne | cons x xs => simp)]
    rw [List.drop_left]
    rfl
  · rename_i hno
    exact absurd rfl (hno (a ++ '>' :: b))

/-- Appending text that contains no `>` does not change the verdict of the
generic tag matcher on a nonempty string, and any match stays within it. -/
theorem mTag_stable (u t : List Char) (ht : ∀ c ∈ t, c ≠ '>') (hne : u ≠ []) :
    mTag (u ++ t) = mTag u ∧
      ∀ n rep, mTag u = some (n, rep) → n ≤ u.length := by
  match u, hne with
  | c :: u', _ =>
    by_cases hc : c = '<'
    · subst hc
      have hud : u'.takeWhile (fun x => x != '>') ++
          u'.dropWhile (fun x => x != '>') = u' :=
        List.takeWhile_append_dropWhile _ u'
      cases hd : u'.dropWhile (fun x => x != '>') with
      | nil =>
        rw [hd] at hud
        have hng : ∀ x ∈ u', x ≠ '>' := by
          intro x hx
          rw [← hud, List.append_nil] at hx
          simpa using List.mem_takeWhile_imp hx
        have h1 : mTag ('<' :: u') = none := mTag_none_of_no_gt u' hng
        have h2 : mTag (('<' :: u') ++ t) = none := by
          rw [List.cons_append]
          exact mTag_none_of_no_gt (u' ++ t)
            (fun x hx => (List.mem_append.mp hx).elim (hng x) (ht x))
        rw [h1, h2]
        exact ⟨rfl, fun n rep h => by simp at h⟩
      | cons x d' =>
        have hx : x = '>' := by
          have := dropWhile_head_false _ u' x d' hd
          simpa using this
        subst hx
        rw [hd] at hud
        have hna : ∀ c ∈ u'.takeWhile (fun x => x != '>'), c ≠ '>' := by
          intro c hcmem
          simpa using List.mem_takeWhile_imp hcmem
        by_cases hanil : u'.takeWhile (fun x => x != '>') = []
        · rw [hanil, List.nil_append] at hud
          have h1 : mTag ('<' :: u') = none := by rw [← hud]; exact mTag_lt_gt d'
          have h2 : mTag (('<' :: u') ++ t) = none := by
            rw [← hud, List.cons_append, List.cons_append]
            exact mTag_lt_gt (d' ++ t)
          rw [h1, h2]
          exact ⟨rfl, fun n rep h => by simp at h⟩
        · have h1 : mTag ('<' :: u') =
              some (1 + (u'.takeWhile (fun x => x != '>')).length + 1, []) := by
            conv_lhs => rw [← hud]
            exact mTag_eq_of_shape _ d' hna hanil
          have h2 : mTag (('<' :: u') ++ t) =
              some (1 + (u'.takeWhile (fun x => x != '>')).length + 1, []) := by
            conv_lhs => rw [← hud, List.cons_append, List.append_assoc, List.cons_append]
            exact mTag_eq_of_shape _ (d' ++ t) hna hanil
          rw [h1, h2]
          refine ⟨rfl, fun n rep h => ?_⟩
          have hlen : u'.length =
              (u'.takeWhile (fun x => x != '>')).length + 1 + d'.length := by
            conv_lhs => rw [← hud]
            simp
            omega
          simp only [Option.some.injEq, Prod.mk.injEq] at h
          obtain ⟨hn, -⟩ := h
          simp only [List.length_cons]
          omega
    · have h1 : mTag (c :: u') = none := mTag_none_of_head c u' hc
      have h2 : mTag ((c :: u') ++ t) = none := by
        rw [List.cons_append]
        exact mTag_none_of_head c (u' ++ t) hc
      rw [h1, h2]
      exact ⟨rfl, fun n rep h => by simp at h⟩

theorem mTag_none_of_suffix_lt (v t : List Char) (hv : ∀ c ∈ v, c ≠ '>')
    (ht : t <:+ '<' :: v) (hne : t ≠ []) : mTag t = none := by
  rcases List.suffix_cons_iff.mp ht with rfl | htv
  · exact mTag_none_of_no_gt v hv
  · match t, hne with
    | c :: t', _ =>
      by_cases hc : c = '<'
      · subst hc
        refine mTag_none_of_no_gt t' (fun x hx => hv x ?_)
        exact htv.subset (by simp [hx])
      · exact mTag_none_of_head c t' hc

/-- A case-insensitive prefix match that fits inside the left part of an
append already matches the left part alone. -/
theorem matchCIList_of_long (u : List Char) : ∀ (pat v : List Char),
    matchCIList pat (u ++ v) = true → pat.length ≤ u.length →
    matchCIList pat u = true := by
  induction u with
  | nil =>
    intro pat v h hlen
    have hp : pat = [] := List.length_eq_zero.mp (Nat.le_zero.mp (by simpa using hlen))
    subst hp; rfl
  | cons c u' ih =>
    intro pat v h hlen
    cases pat with
    | nil => rfl
    | cons p ps =>
      rw [List.cons_append] at h
      simp only [matchCIList, Bool.and_eq_true] at h ⊢
      exact ⟨h.1, ih ps v h.2 (by simp only [List.length_cons] at hlen; omega)⟩

/-- A case-insensitive match that outlasts the left part of an append
continues with the rest of the pattern on the right part. -/
theorem matchCIList_drop_of_short (u : List Char) : ∀ (pat v : List Char),
    matchCIList pat (u ++ v) = true → u.length ≤ pat.length →
    matchCIList (pat.drop u.length) v = true := by
  induction u with
  | nil => intro pat v h _; simpa using h
  | cons c u' ih =>
    intro pat v h hlen
    cases pat with
    | nil => simp only [List.length_cons, List.length_nil] at hlen; omega
    | cons p ps =>
      rw [List.cons_append] at h
      simp only [matchCIList, Bool.and_eq_true] at h
      simpa using ih ps v h.2 (by simp only [List.length_cons] at hlen; omega)

/-- When the scan finds no case-insensitive occurrence of the pattern, no
suffix of the text matches it. -/
theorem findCIidx_none (pat : List Char) :
    ∀ l, findCIidx pat l = none → ∀ u, u <:+ l → matchCIList pat u = false := by
  intro l
  induction l with
  | nil =>
    intro h u hu
    rw [List.suffix_nil.mp hu]
    cases hb : matchCIList pat [] with
    | false => rfl
    | true =>
      have h0 : findCIidx pat [] = some 0 := by simp [findCIidx, hb]
      rw [h0] at h
      simp at h
  | cons c rest ih =>
    intro h u hu
    cases hb : matchCIList pat (c :: rest) with
    | true =>
      have h0 : findCIidx pat (c :: rest) = some 0 := by simp [findCIidx, hb]
      rw [h0] at h
      simp at h
    | false =>
      have hrec : findCIidx pat (c :: rest) = (findCIidx pat rest).map (· + 1) := by
        simp [findCIidx, hb]
      rw [hrec] at h
      have hrest : findCIidx pat rest = none := by
        cases hfr : findCIidx pat rest with
        | none => rfl
        | some k => rw [hfr] at h; simp at h
      rcases List.suffix_cons_iff.mp hu with rfl | hu'
      · exact hb
      · exact ih hrest u hu'

/-- The script/style block matcher fires on a complete block whose open
tag has no `>` inside its attribute text and whose content contains no
case-insensitive occurrence of the closing tag; the closing tag's tail
holds no literal `<`, which rules out a match straddling the boundary
between the content and the real closing tag. -/
theorem mBlock_fires (op clT attrs code w : List Char)
    (hop : ∀ c ∈ op, c.toLower = c)
    (hcl : ∀ c ∈ '<' :: clT, c.toLower = c)
    (hattrs : ∀ c ∈ attrs, c ≠ '>')
    (hclT : '<' ∉ clT)
    (hcode : ∀ u, u <:+ code → matchCIList ('<' :: clT) u = false) :
    mBlock op ('<' :: clT)
      (op ++ (attrs ++ '>' :: (code ++ ('<' :: clT) ++ w))) =
      some (op.length + attrs.length + 1 + code.length + ('<' :: clT).length,
        []) := by
  have hmatch : matchCIList op
      (op ++ (attrs ++ '>' :: (code ++ ('<' :: clT) ++ w))) = true :=
    matchCIList_self op _ hop
  have hdrop1 : (op ++ (attrs ++ '>' :: (code ++ ('<' :: clT) ++ w))).drop
      op.length = attrs ++ '>' :: (code ++ ('<' :: clT) ++ w) :=
    List.drop_left op _
  have hfind : List.findIdx? (fun c => c == '>')
      (attrs ++ '>' :: (code ++ ('<' :: clT) ++ w)) = some attrs.length :=
    findIdx?_first _ attrs '>' _ (fun x hx => by simpa using hattrs x hx)
      (by simp)
  have hdrop2 : (attrs ++ '>' :: (code ++ ('<' :: clT) ++ w)).drop
      (attrs.length + 1) = code ++ ('<' :: clT) ++ w := by
    rw [show attrs ++ '>' :: (code ++ ('<' :: clT) ++ w)
        = (attrs ++ ['>']) ++ (code ++ ('<' :: clT) ++ w) by simp]
    exact List.drop_left' (by simp)
  have hcifind : findCIidx ('<' :: clT) (code ++ ('<' :: clT) ++ w)
      = some code.length := by
    rw [List.append_assoc]
    refine findCIidx_append _ code _ ?_ (matchCIList_self _ w hcl)
    intro u hu hne
    cases hb : matchCIList ('<' :: clT) (u ++ ('<' :: clT ++ w)) with
    | false => rfl
    | true =>
      exfalso
      rcases le_or_lt ('<' :: clT).length u.length with hle | hlt
      · exact absurd (matchCIList_of_long u _ _ hb hle) (by simp [hcode u hu])
      · have hd := matchCIList_drop_of_short u _ _ hb (Nat.le_of_lt hlt)
        cases u with
        | nil => exact hne rfl
        | cons c u' =>
          have hdrop : ('<' :: clT).drop (c :: u').length = clT.drop u'.length := by
            simp
          rw [hdrop] at hd
          have hlt' : u'.length < clT.length := by
            simp only [List.length_cons] at hlt
            omega
          cases hds : clT.drop u'.length with
          | nil =>
            have hlen := congrArg List.length hds
            simp only [List.length_drop, List.length_nil] at hlen
            omega
          | cons d ds =>
            rw [hds] at hd
            have hdmem : d ∈ clT :=
              List.mem_of_mem_drop
                (show d ∈ clT.drop u'.length from hds ▸ List.mem_cons_self d ds)
            have hmatch1 : matchCIList (d :: ds) ('<' :: (clT ++ w)) = true := by
              simpa using hd
            simp only [matchCIList, Bool.and_eq_true, beq_iff_eq] at hmatch1
            have hdlt : d = '<' := by
              have h1 := hmatch1.1
              rw [show Char.toLower '<' = '<' from by decide] at h1
              exact h1.symm
            exact hclT (hdlt ▸ hdmem)
  unfold mBlock
  simp only [hmatch, if_true, hdrop1, hfind, hdrop2, hcifind]

/-- Removing a well-formed `<script ...>...</script>` block: the scan
deletes the whole block and continues after it. -/
theorem removeScripts_block (attrs code w : List Char)
    (hattrs : ∀ c ∈ attrs, c ≠ '>')
    (hcode : findCIidx (chars "</script>") code = none) :
    removeScripts (chars "<script" ++ attrs ++ '>' :: code ++
      chars "</script>" ++ w) = removeScripts w := by
  have hops : chars "<script" = '<' :: chars "script" := by decide
  have hcl : ('<' :: chars "/script>") = chars "</script>" := by decide
  have hcode' : ∀ u, u <:+ code → matchCIList ('<' :: chars "/script>") u = false := by
    intro u hu
    rw [hcl]
    exact findCIidx_none (chars "</script>") code hcode u hu
  have hfire := mBlock_fires (chars "<script") (chars "/script>") attrs code w
    (by decide) (by decide) hattrs (by decide) hcode'
  rw [hcl] at hfire
  have hshape : chars "<script" ++ attrs ++ '>' :: code ++ chars "</script>" ++ w
      = chars "<script" ++ (attrs ++ '>' :: (code ++ chars "</script>" ++ w)) := by
    simp
  have hshape2 : chars "<script" ++ (attrs ++ '>' :: (code ++ chars "</script>" ++ w))
      = '<' :: (chars "script" ++ (attrs ++ '>' :: (code ++ chars "</script>" ++ w))) := by
    rw [hops]; rfl
  rw [hshape, hshape2]
  unfold removeScripts
  rw [replaceScan_cons_some _ _ _ _ _ (by
    rw [← hshape2]
    simpa using hfire)]
  have : chars "script" ++ (attrs ++ '>' :: (code ++ chars "</script>" ++ w))
      = (chars "script" ++ attrs ++ ['>'] ++ code ++ chars "</script>") ++ w := by
    simp
  rw [this, List.drop_left' (by simp [chars]; omega)]
  rfl

/-- Removing a well-formed `<style ...>...</style>` block. -/
theorem removeStyles_block (attrs code w : List Char)
    (hattrs : ∀ c ∈ attrs, c ≠ '>')
    (hcode : findCIidx (chars "</style>") code = none) :
    removeStyles (chars "<style" ++ attrs ++ '>' :: code ++
      chars "</style>" ++ w) = removeStyles w := by
  have hops : chars "<style" = '<' :: chars "style" := by decide
  have hcl : ('<' :: chars "/style>") = chars "</style>" := by decide
  have hcode' : ∀ u, u <:+ code → matchCIList ('<' :: chars "/style>") u = false := by
    intro u hu
    rw [hcl]
    exact findCIidx_none (chars "</style>") code hcode u hu
  have hfire := mBlock_fires (chars "<style") (chars "/style>") attrs code w
    (by decide) (by decide) hattrs (by decide) hcode'
  rw [hcl] at hfire
  have hshape : chars "<style" ++ attrs ++ '>' :: code ++ chars "</style>" ++ w
      = chars "<style" ++ (attrs ++ '>' :: (code ++ chars "</style>" ++ w)) := by
    simp
  have hshape2 : chars "<style" ++ (attrs ++ '>' :: (code ++ chars "</style>" ++ w))
      = '<' :: (chars "style" ++ (attrs ++ '>' :: (code ++ chars "</style>" ++ w))) := by
    rw [hops]; rfl
  rw [hshape, hshape2]
  unfold removeStyles
  rw [replaceScan_cons_some _ _ _ _ _ (by
    rw [← hshape2]
    simpa using hfire)]
  have : chars "style" ++ (attrs ++ '>' :: (code ++ chars "</style>" ++ w))
      = (chars "style" ++ attrs ++ ['>'] ++ code ++ chars "</style>") ++ w := by
    simp
  rw [this, List.drop_left' (by simp [chars]; omega)]
  rfl

/-- The `<br>` matcher fires on every attribute-free variant: optional
whitespace, optional self-closing slash, any letter case. -/
theorem mBr_fires (b r : Char) (ws pre rest : List Char)
    (hb : b.toLower = 'b') (hr : r.toLower = 'r')
    (hws : ∀ c ∈ ws, isJsSpace c = true)
    (hpre : pre = ['>'] ∨ pre = ['/', '>']) :
    mBr ('<' :: b :: r :: (ws ++ pre ++ rest)) =
      some (3 + ws.length + pre.length, ['\n']) := by
  have hmatch : matchCIList ['<', 'b', 'r'] ('<' :: b :: r :: (ws ++ pre ++ rest))
      = true := by
    simp [matchCIList, hb, hr]
  have hdrop3 : ('<' :: b :: r :: (ws ++ pre ++ rest)).drop 3 = ws ++ pre ++ rest :=
    rfl
  rcases hpre with rfl | rfl
  · have hsplit := takeWhile_dropWhile_exact isJsSpace ws '>' rest hws (by decide)
    have htw : (ws ++ ['>'] ++ rest).takeWhile isJsSpace = ws := by
      rw [List.append_assoc]; exact hsplit.1
    have hdropw : (ws ++ ['>'] ++ rest).drop ws.length = '>' :: rest := by
      rw [List.append_assoc, List.drop_left ws]; rfl
    unfold mBr
    simp only [hmatch, if_true, hdrop3, htw, hdropw]
    simp
  · have hsplit := takeWhile_dropWhile_exact isJsSpace ws '/' ('>' :: rest) hws
      (by decide)
    have htw : (ws ++ ['/', '>'] ++ rest).takeWhile isJsSpace = ws := by
      rw [List.append_assoc]
      exact (takeWhile_dropWhile_exact isJsSpace ws '/' ('>' :: rest) hws
        (by decide)).1
    have hdropw : (ws ++ ['/', '>'] ++ rest).drop ws.length = '/' :: '>' :: rest := by
      rw [List.append_assoc, List.drop_left ws]; rfl
    unfold mBr
    simp only [hmatch, if_true, hdrop3, htw, hdropw]
    simp

/-- A complete attribute-free line-break tag at the head of the string is
rewritten to a single newline and processing continues after the tag. -/
theorem replBr_tag (b r : Char) (ws pre rest : List Char)
    (hb : b.toLower = 'b') (hr : r.toLower = 'r')
    (hws : ∀ c ∈ ws, isJsSpace c = true)
    (hpre : pre = ['>'] ∨ pre = ['/', '>']) :
    replBr ('<' :: b :: r :: (ws ++ pre ++ rest)) = '\n' :: replBr rest := by
  unfold replBr
  rw [replaceScan_cons_some _ _ _ _ _ (mBr_fires b r ws pre rest hb hr hws hpre)]
  have hlen : (b :: r :: (ws ++ pre)).length = 3 + ws.length + pre.length - 1 := by
    simp; omega
  have hshape : b :: r :: (ws ++ pre ++ rest) = (b :: r :: (ws ++ pre)) ++ rest := by
    simp
  rw [hshape, List.drop_left' hlen]
  rfl

/-! ### Head-character characterizations: each matcher can only fire when
the current character is its pattern's first character. -/

theorem toLower_ne_of_ne (c d : Char) (hd : ¬(97 ≤ d.toNat ∧ d.toNat ≤ 122))
    (h : c ≠ d) : ¬ c.toLower = d :=
  fun hlow => h (eq_of_toLower_eq c d hd hlow)

theorem mLit_none_of_head (p0 : Char) (pr rep : List Char) (c : Char)
    (rest : List Char) (h : ¬ c.toLower = p0) :
    mLit (p0 :: pr) rep (c :: rest) = none := by
  unfold mLit
  rw [matchCIList_cons_false p0 pr c rest h]
  rfl

theorem mBlock_none_of_head (p0 : Char) (pr cl : List Char) (c : Char)
    (rest : List Char) (h : ¬ c.toLower = p0) :
    mBlock (p0 :: pr) cl (c :: rest) = none := by
  unfold mBlock
  rw [matchCIList_cons_false p0 pr c rest h]
  rfl

theorem mBr_none_of_head (c : Char) (rest : List Char)
    (h : ¬ c.toLower = '<') : mBr (c :: rest) = none := by
  unfold mBr
  rw [matchCIList_cons_false '<' ['b', 'r'] c rest h]
  rfl

theorem mCloseH_none_of_head (c : Char) (rest : List Char) (h : c ≠ '<') :
    mCloseH (c :: rest) = none := by
  unfold mCloseH
  split
  · rename_i heq
    injection heq with h1 _
    exact absurd h1 h
  · rfl

theorem mOpenH_none_of_head (c : Char) (rest : List Char) (h : c ≠ '<') :
    mOpenH (c :: rest) = none := by
  unfold mOpenH
  split
  · rename_i heq
    injection heq with h1 _
    exact absurd h1 h
  · rfl

theorem mHash_none_of_head (c : Char) (rest : List Char) (h : c ≠ '#') :
    mHash (c :: rest) = none := by
  unfold mHash
  split
  · rename_i heq
    injection heq with h1 _
    exact absurd h1 h
  · rfl

theorem mAmps_none_of_head (c : Char) (rest : List Char) (h : c ≠ '&') :
    mAmps (c :: rest) = none := by
  unfold mAmps
  split
  · rename_i heq
    injection heq with h1 _
    exact absurd h1 h
  · rfl

theorem mCR_none_of_head (c : Char) (rest : List Char) (h : c ≠ '\r') :
    mCR (c :: rest) = none := by
  unfold mCR
  split
  · rename_i heq
    injection heq with h1 _
    exact absurd h1 h
  · rfl

theorem mTab_none_of_head (c : Char) (rest : List Char) (h : c ≠ '\t') :
    mTab (c :: rest) = none := by
  unfold mTab
  split
  · rename_i heq
    injection heq with h1 _
    exact absurd h1 h
  · rfl

theorem takeWhile_nil_of_head (p : Char → Bool) (l : List Char)
    (h : ∀ c, l.head? = some c → p c = false) : l.takeWhile p = [] := by
  cases l with
  | nil => rfl
  | cons c rest => simp [List.takeWhile_cons, h c rfl]

/-- The space-run matcher fires only when the first two characters are
both spaces. -/
theorem mSpaces_none_char (c : Char) (t : List Char)
    (h : ¬(c = ' ' ∧ t.head? = some ' ')) : mSpaces (c :: t) = none := by
  unfold mSpaces
  split
  · rename_i heq
    injection heq with h1 h2
    subst h1 h2
    have hhd : ∀ d, t.head? = some d → (d == ' ') = false := by
      intro d hd
      by_cases hds : d = ' '
      · exact absurd ⟨rfl, hds ▸ hd⟩ h
      · simp [hds]
    rw [takeWhile_nil_of_head _ t hhd]
    rfl
  · rfl

/-- The newline-run matcher fires only when the first two characters are
both newlines. -/
theorem mNewlines_none_char (c : Char) (t : List Char)
    (h : ¬(c = '\n' ∧ t.head? = some '\n')) : mNewlines (c :: t) = none := by
  unfold mNewlines
  split
  · rename_i heq
    injection heq with h1 h2
    subst h1 h2
    have hhd : ∀ d, t.head? = some d → (d == '\n') = false := by
      intro d hd
      by_cases hds : d = '\n'
      · exact absurd ⟨rfl, hds ▸ hd⟩ h
      · simp [hds]
    rw [takeWhile_nil_of_head _ t hhd]
    rfl
  · rfl

/-- Two newlines not followed by a third do not fire the newline-run
matcher. -/
theorem mNewlines_none_char2 (t : List Char) (h : t.head? ≠ some '\n') :
    mNewlines ('\n' :: '\n' :: t) = none := by
  unfold mNewlines
  split
  · rename_i heq
    injection heq with _ h2
    subst h2
    have hhd : ∀ d, t.head? = some d → (d == '\n') = false := by
      intro d hd
      by_cases hds : d = '\n'
      · exact absurd (hds ▸ hd) h
      · simp [hds]
    simp only [List.takeWhile_cons]
    rw [takeWhile_nil_of_head _ t hhd]
    simp
  · rfl

/-- A scan is the identity on a string none of whose characters can start
a match. -/
theorem replaceScan_eq_self_of_headchar (m : Matcher) (P : Char → Prop)
    (hm : ∀ c rest, ¬ P c → m (c :: rest) = none)
    (l : List Char) (hl : ∀ c ∈ l, ¬ P c) : replaceScan m l = l :=
  replaceScan_eq_self m l (fun t ht hne =>
    match t, hne with
    | c :: t', _ => hm c t' (hl c (ht.subset (List.mem_cons_self c t'))))

/-! ### Character removal and adjacency invariants of the scans -/

theorem drop_length_takeWhile (p : Char → Bool) (l : List Char) :
    l.drop (l.takeWhile p).length = l.dropWhile p := by
  induction l with
  | nil => rfl
  | cons c rest ih =>
    rw [List.takeWhile_cons, List.dropWhile_cons]
    cases hc : p c with
    | true => simpa [hc] using ih
    | false => simp [hc]

theorem mCR_some_shape (t : List Char) (n : Nat) (rep : List Char)
    (h : mCR t = some (n, rep)) : rep = [] := by
  unfold mCR at h
  split at h
  · injection h with h'
    injection h' with _ h2
    exact h2.symm
  · cases h

theorem mTab_some_shape (t : List Char) (n : Nat) (rep : List Char)
    (h : mTab t = some (n, rep)) : rep = [' '] := by
  unfold mTab at h
  split at h
  · injection h with h'
    injection h' with _ h2
    exact h2.symm
  · cases h

theorem mSpaces_some_shape (t : List Char) (n : Nat) (rep : List Char)
    (h : mSpaces t = some (n, rep)) :
    ∃ rest, t = ' ' :: rest ∧ rep = [' '] ∧
      n = 1 + (rest.takeWhile (fun c => c == ' ')).length := by
  unfold mSpaces at h
  split at h
  · rename_i rest
    dsimp only at h
    split at h
    · injection h with h'
      injection h' with h1 h2
      exact ⟨rest, rfl, h2.symm, h1.symm⟩
    · cases h
  · cases h

theorem mNewlines_some_shape (t : List Char) (n : Nat) (rep : List Char)
    (h : mNewlines t = some (n, rep)) :
    ∃ rest, t = '\n' :: rest ∧ rep = ['\n', '\n'] ∧
      n = 1 + (rest.takeWhile (fun c => c == '\n')).length := by
  unfold mNewlines at h
  split at h
  · rename_i rest
    dsimp only at h
    split at h
    · injection h with h'
      injection h' with h1 h2
      exact ⟨rest, rfl, h2.symm, h1.symm⟩
    · cases h
  · cases h

theorem mSpaces_rep_head (c : Char) (rest : List Char) (n : Nat)
    (rep : List Char) (h : mSpaces (c :: rest) = some (n, rep)) :
    rep.head? = some c := by
  obtain ⟨r, hr, rfl, -⟩ := mSpaces_some_shape _ n rep h
  injection hr with h1 _
  rw [h1]
  rfl

theorem mNewlines_rep_head (c : Char) (rest : List Char) (n : Nat)
    (rep : List Char) (h : mNewlines (c :: rest) = some (n, rep)) :
    rep.head? = some c := by
  obtain ⟨r, hr, rfl, -⟩ := mNewlines_some_shape _ n rep h
  injection hr with h1 _
  rw [h1]
  rfl

theorem mSpaces_fires (rest : List Char) :
    mSpaces (' ' :: ' ' :: rest) ≠ none := by
  intro hc
  have heq : mSpaces (' ' :: ' ' :: rest) =
      if 2 ≤ 1 + ((' ' :: rest).takeWhile (fun c => c == ' ')).length then
        some (1 + ((' ' :: rest).takeWhile (fun c => c == ' ')).length, [' '])
      else none := rfl
  rw [heq] at hc
  rw [if_pos (by simp [List.takeWhile_cons]; omega)] at hc
  cases hc

/-- Scans whose matcher always fires on the target character and never
re-introduces it produce output free of that character. -/
theorem bad_not_mem_replaceScanGo (m : Matcher) (bad : Char)
    (hfire : ∀ rest, m (bad :: rest) ≠ none)
    (hrep : ∀ t n rep, m t = some (n, rep) → bad ∉ rep) :
    ∀ (fuel : Nat) (l : List Char), l.length ≤ fuel →
      bad ∉ replaceScanGo m fuel l := by
  intro fuel
  induction fuel with
  | zero =>
    intro l hl
    have hnil : l = [] := by cases l <;> simp_all
    subst hnil
    simp [replaceScanGo]
  | succ f ih =>
    intro l hl
    match l with
    | [] => simp [replaceScanGo]
    | c :: rest =>
      simp only [replaceScanGo]
      cases hm : m (c :: rest) with
      | none =>
        intro hmem
        rcases List.mem_cons.mp hmem with rfl | hmem'
        · exact hfire rest hm
        · exact ih rest (by simpa using hl) hmem'
      | some p =>
        obtain ⟨n, rep⟩ := p
        intro hmem
        rcases List.mem_append.mp hmem with hmem' | hmem'
        · exact hrep _ _ _ hm hmem'
        · refine ih (List.drop (n - 1) rest) ?_ hmem'
          simp only [List.length_drop]
          simp only [List.length_cons] at hl
          omega

theorem not_mem_stripCR (l : List Char) : '\r' ∉ stripCR l :=
  bad_not_mem_replaceScanGo mCR '\r'
    (fun rest h => by simp [mCR] at h)
    (fun t n rep h => by rw [mCR_some_shape t n rep h]; simp)
    l.length l le_rfl

theorem not_mem_replaceTabs (l : List Char) : '\t' ∉ replaceTabs l :=
  bad_not_mem_replaceScanGo mTab '\t'
    (fun rest h => by simp [mTab] at h)
    (fun t n rep h => by rw [mTab_some_shape t n rep h]; decide)
    l.length l le_rfl

/-- Character preservation: a scan whose replacements avoid `bad` cannot
introduce `bad`. -/
theorem not_mem_replaceScan_of (m : Matcher) (S : List Char) (bad : Char)
    (hrep : ∀ t n rep, m t = some (n, rep) → ∀ x ∈ rep, x ∈ S)
    (l : List Char) (hl : bad ∉ l) (hS : bad ∉ S) :
    bad ∉ replaceScan m l := fun hmem =>
  (mem_replaceScan m S hrep l bad hmem).elim hl hS

theorem mSpaces_rep_sub (t : List Char) (n : Nat) (rep : List Char)
    (h : mSpaces t = some (n, rep)) : ∀ x ∈ rep, x ∈ [' '] := by
  obtain ⟨rest, -, rfl, -⟩ := mSpaces_some_shape t n rep h
  simp

theorem mNewlines_rep_sub (t : List Char) (n : Nat) (rep : List Char)
    (h : mNewlines t = some (n, rep)) : ∀ x ∈ rep, x ∈ ['\n'] := by
  obtain ⟨rest, -, rfl, -⟩ := mNewlines_some_shape t n rep h
  simp

theorem mTab_rep_sub (t : List Char) (n : Nat) (rep : List Char)
    (h : mTab t = some (n, rep)) : ∀ x ∈ rep, x ∈ [' '] := by
  rw [mTab_some_shape t n rep h]
  simp

/-- Head preservation: if every replacement starts with the character it
replaced, the scan preserves the head. -/
theorem head?_replaceScanGo (m : Matcher)
    (hh : ∀ c rest n rep, m (c :: rest) = some (n, rep) → rep.head? = some c) :
    ∀ (fuel : Nat) (l : List Char),
      (replaceScanGo m fuel l).head? = l.head? := by
  intro fuel
  cases fuel with
  | zero => intro l; cases l <;> rfl
  | succ f =>
    intro l
    cases l with
    | nil => rfl
    | cons c rest =>
      simp only [replaceScanGo]
      cases hm : m (c :: rest) with
      | none => rfl
      | some p =>
        obtain ⟨n, rep⟩ := p
        rw [List.head?_append, hh c rest n rep hm]
        rfl

/-- The space-collapsing scan leaves no two adjacent spaces. -/
theorem chain'_noSS_replaceScanGo :
    ∀ (fuel : Nat) (l : List Char), l.length ≤ fuel →
      List.Chain' (fun a b => ¬(a = ' ' ∧ b = ' '))
        (replaceScanGo mSpaces fuel l) := by
  intro fuel
  induction fuel with
  | zero =>
    intro l hl
    have hnil : l = [] := by cases l <;> simp_all
    subst hnil
    simp [replaceScanGo]
  | succ f ih =>
    intro l hl
    match l with
    | [] => simp [replaceScanGo]
    | c :: rest =>
      simp only [replaceScanGo]
      cases hm : mSpaces (c :: rest) with
      | none =>
        rw [List.chain'_cons']
        refine ⟨?_, ih rest (by simpa using hl)⟩
        intro y hy
        rw [head?_replaceScanGo mSpaces mSpaces_rep_head] at hy
        rintro ⟨rfl, rfl⟩
        cases rest with
        | nil => simp at hy
        | cons d rest' =>
          simp only [List.head?_cons, Option.mem_def, Option.some.injEq] at hy
          subst hy
          exact mSpaces_fires rest' hm
      | some p =>
        obtain ⟨n, rep⟩ := p
        obtain ⟨rest', heq, hrep, hn⟩ := mSpaces_some_shape _ n rep hm
        injection heq with h1 h2
        subst h1
        subst h2
        subst hrep
        simp only [List.singleton_append]
        rw [List.chain'_cons']
        refine ⟨?_, ih _ (by
          simp only [List.length_drop]
          simp only [List.length_cons] at hl
          omega)⟩
        intro y hy
        rw [head?_replaceScanGo mSpaces mSpaces_rep_head] at hy
        rw [hn] at hy
        simp only [Nat.add_sub_cancel_left] at hy
        rw [drop_length_takeWhile] at hy
        rintro ⟨-, rfl⟩
        cases hz : rest.dropWhile (fun c => c == ' ') with
        | nil => rw [hz] at hy; simp at hy
        | cons z zs =>
          rw [hz] at hy
          simp only [List.head?_cons, Option.mem_def, Option.some.injEq] at hy
          have := dropWhile_head_false _ rest z zs hz
          rw [hy] at this
          simp at this

theorem chain'_noSS_collapseSpaces (l : List Char) :
    List.Chain' (fun a b => ¬(a = ' ' ∧ b = ' ')) (collapseSpaces l) :=
  chain'_noSS_replaceScanGo l.length l le_rfl

/-- The newline-collapsing scan preserves the no-two-adjacent-spaces
invariant. -/
theorem chain'_noSS_replaceScanGo_newlines :
    ∀ (fuel : Nat) (l : List Char), l.length ≤ fuel →
      List.Chain' (fun a b => ¬(a = ' ' ∧ b = ' ')) l →
      List.Chain' (fun a b => ¬(a = ' ' ∧ b = ' '))
        (replaceScanGo mNewlines fuel l) := by
  intro fuel
  induction fuel with
  | zero =>
    intro l hl hc
    have hnil : l = [] := by cases l <;> simp_all
    subst hnil
    simp [replaceScanGo]
  | succ f ih =>
    intro l hl hc
    match l with
    | [] => simp [replaceScanGo]
    | c :: rest =>
      simp only [replaceScanGo]
      cases hm : mNewlines (c :: rest) with
      | none =>
        rw [List.chain'_cons']
        refine ⟨?_, ih rest (by simpa using hl) hc.tail⟩
        intro y hy
        rw [head?_replaceScanGo mNewlines mNewlines_rep_head] at hy
        exact (List.chain'_cons'.mp hc).1 y hy
      | some p =>
        obtain ⟨n, rep⟩ := p
        obtain ⟨rest', heq, hrep, hn⟩ := mNewlines_some_shape _ n rep hm
        injection heq with h1 h2
        subst h1
        subst h2
        subst hrep
        refine List.chain'_append.mpr ⟨?_, ?_, ?_⟩
        · exact List.chain'_pair.mpr (by simp)
        · refine ih _ (by
            simp only [List.length_drop]
            simp only [List.length_cons] at hl
            omega) ?_
          exact hc.tail.suffix (List.drop_suffix _ _)
        · intro x hx y hy
          simp only [List.getLast?_cons_cons, List.getLast?_singleton,
            Option.mem_def, Option.some.injEq] at hx
          subst hx
          simp

theorem chain'_noSS_collapseNewlines (l : List Char)
    (h : List.Chain' (fun a b => ¬(a = ' ' ∧ b = ' ')) l) :
    List.Chain' (fun a b => ¬(a = ' ' ∧ b = ' ')) (collapseNewlines l) :=
  chain'_noSS_replaceScanGo_newlines l.length l le_rfl h

/-! ### Facts about the newline split -/

theorem splitNNGo_irrel :
    ∀ (fuel fuel' : Nat) (l : List Char), l.length ≤ fuel → l.length ≤ fuel' →
      splitNNGo fuel l = splitNNGo fuel' l := by
  intro fuel
  induction fuel using Nat.strong_induction_on with
  | _ fuel ih =>
    intro fuel' l hf hf'
    match l with
    | [] => cases fuel <;> cases fuel' <;> rfl
    | c :: rest =>
      simp only [List.length_cons] at hf hf'
      obtain ⟨f, rfl⟩ : ∃ f, fuel = f + 1 := ⟨fuel - 1, by omega⟩
      obtain ⟨f', rfl⟩ : ∃ f', fuel' = f' + 1 := ⟨fuel' - 1, by omega⟩
      simp only [splitNNGo]
      by_cases hcond : c = '\n' ∧ rest.head? = some '\n'
      · rw [if_pos hcond, if_pos hcond]
        congr 1
        refine ih f (by omega) f' _ ?_ ?_ <;>
          simp only [List.length_drop] <;> omega
      · rw [if_neg hcond, if_neg hcond]
        rw [ih f (by omega) f' rest (by omega) (by omega)]

theorem splitNN_cons_nn (c : Char) (rest : List Char)
    (h : c = '\n' ∧ rest.head? = some '\n') :
    splitNN (c :: rest) =
      [] :: splitNN (rest.drop (rest.takeWhile (fun x => x = '\n')).length) := by
  unfold splitNN
  simp only [List.length_cons, splitNNGo, if_pos h]
  congr 1
  refine splitNNGo_irrel rest.length _ _ ?_ le_rfl
  simp only [List.length_drop]
  omega

theorem splitNN_cons_other (c : Char) (rest : List Char)
    (h : ¬(c = '\n' ∧ rest.head? = some '\n')) :
    splitNN (c :: rest) =
      match splitNN rest with
      | [] => [[c]]
      | seg :: segs => (c :: seg) :: segs := by
  unfold splitNN
  simp only [List.length_cons, splitNNGo, if_neg h]

/-- Every result of the split is nonempty; its first segment is a prefix
of the input starting at the input's head, all segments are infixes, and
no segment contains two adjacent newlines. -/
theorem splitNN_bundle :
    ∀ (N : Nat) (l : List Char), l.length ≤ N →
      ∃ seg0 segs, splitNN l = seg0 :: segs ∧ seg0 <+: l ∧
        List.Chain' (fun a b => ¬(a = '\n' ∧ b = '\n')) seg0 ∧
        (seg0 = [] ∨ seg0.head? = l.head?) ∧
        ∀ seg ∈ segs, seg <:+: l ∧
          List.Chain' (fun a b => ¬(a = '\n' ∧ b = '\n')) seg := by
  intro N
  induction N with
  | zero =>
    intro l hl
    have hnil : l = [] := by cases l <;> simp_all
    subst hnil
    exact ⟨[], [], rfl, List.nil_prefix, List.chain'_nil, Or.inl rfl,
      by simp⟩
  | succ N ih =>
    intro l hl
    match l with
    | [] =>
      exact ⟨[], [], rfl, List.nil_prefix, List.chain'_nil, Or.inl rfl,
        by simp⟩
    | c :: rest =>
      simp only [List.length_cons] at hl
      by_cases hcond : c = '\n' ∧ rest.head? = some '\n'
      · rw [splitNN_cons_nn c rest hcond]
        have hsub : (rest.drop
            (rest.takeWhile (fun x => x = '\n')).length) <:+ rest :=
          List.drop_suffix _ _
        obtain ⟨s0, ss, hs, hpre, hch, -, hrest⟩ :=
          ih (rest.drop (rest.takeWhile (fun x => x = '\n')).length)
            (by
              have := hsub.length_le
              omega)
        refine ⟨[], splitNN _, rfl, List.nil_prefix, List.chain'_nil,
          Or.inl rfl, ?_⟩
        intro seg hseg
        rw [hs] at hseg
        rcases List.mem_cons.mp hseg with rfl | hseg'
        · exact ⟨hpre.isInfix.trans
            (hsub.isInfix.trans (List.suffix_cons c rest).isInfix), hch⟩
        · obtain ⟨hinf, hch'⟩ := hrest seg hseg'
          exact ⟨hinf.trans
            (hsub.isInfix.trans (List.suffix_cons c rest).isInfix), hch'⟩
      · rw [splitNN_cons_other c rest hcond]
        obtain ⟨s0, ss, hs, hpre, hch, hhd, hrest⟩ := ih rest (by omega)
        rw [hs]
        refine ⟨c :: s0, ss, rfl, ?_, ?_, Or.inr rfl, ?_⟩
        · exact (List.cons_prefix_cons).mpr ⟨rfl, hpre⟩
        · rw [List.chain'_cons']
          refine ⟨?_, hch⟩
          intro y hy hpair
          obtain ⟨hc1, hy1⟩ := hpair
          rcases hhd with rfl | hhd
          · simp at hy
          · rw [hhd] at hy
            rw [Option.mem_def] at hy
            exact hcond ⟨hc1, by rw [hy, hy1]⟩
        · intro seg hseg
          obtain ⟨hinf, hch'⟩ := hrest seg hseg
          exact ⟨hinf.trans (List.suffix_cons c rest).isInfix, hch'⟩

theorem splitNN_all (l : List Char) :
    ∀ seg ∈ splitNN l, seg <:+: l ∧
      List.Chain' (fun a b => ¬(a = '\n' ∧ b = '\n')) seg := by
  intro seg hseg
  obtain ⟨s0, ss, hs, hpre, hch, -, hrest⟩ :=
    splitNN_bundle l.length l le_rfl
  rw [hs] at hseg
  rcases List.mem_cons.mp hseg with rfl | hseg'
  · exact ⟨hpre.isInfix, hch⟩
  · exact hrest seg hseg'

/-- A nonempty string with no two adjacent newlines is not split. -/
theorem splitNN_single (p : List Char) (hne : p ≠ [])
    (hch : List.Chain' (fun a b => ¬(a = '\n' ∧ b = '\n')) p) :
    splitNN p = [p] := by
  induction p with
  | nil => exact absurd rfl hne
  | cons c rest ih =>
    have hcond : ¬(c = '\n' ∧ rest.head? = some '\n') := by
      rintro ⟨rfl, hhd⟩
      cases rest with
      | nil => simp at hhd
      | cons d rest' =>
        simp only [List.head?_cons, Option.some.injEq] at hhd
        exact (List.chain'_cons.mp hch).1 ⟨rfl, hhd⟩
    rw [splitNN_cons_other c rest hcond]
    cases hr : rest with
    | nil => rfl
    | cons d rest' =>
      rw [← hr, ih (by simp [hr]) hch.tail]

/-! ### Facts about two-newline intercalation -/

theorem intercalate_nn_single (p : List Char) :
    List.intercalate ['\n', '\n'] [p] = p := by
  simp [List.intercalate]

theorem intercalate_nn_cons₂ (p q : List Char) (ps : List (List Char)) :
    List.intercalate ['\n', '\n'] (p :: q :: ps) =
      p ++ '\n' :: '\n' :: List.intercalate ['\n', '\n'] (q :: ps) := by
  simp [List.intercalate, List.intersperse_cons_cons]

theorem head?_intercalate_nn (p : List Char) (ps : List (List Char))
    (hp : p ≠ []) :
    (List.intercalate ['\n', '\n'] (p :: ps)).head? = p.head? := by
  cases ps with
  | nil => rw [intercalate_nn_single]
  | cons q ps' =>
    rw [intercalate_nn_cons₂, List.head?_append]
    cases p with
    | nil => exact absurd rfl hp
    | cons c p' => rfl

theorem intercalate_nn_ne_nil (p : List Char) (ps : List (List Char))
    (hp : p ≠ []) : List.intercalate ['\n', '\n'] (p :: ps) ≠ [] := by
  intro hcontra
  have := head?_intercalate_nn p ps hp
  rw [hcontra] at this
  cases p with
  | nil => exact hp rfl
  | cons c p' => simp at this

theorem mem_intercalate_nn (c : Char) (ps : List (List Char))
    (h : c ∈ List.intercalate ['\n', '\n'] ps) :
    c = '\n' ∨ ∃ p ∈ ps, c ∈ p := by
  induction ps with
  | nil => simp [List.intercalate] at h
  | cons p ps' ih =>
    cases ps' with
    | nil =>
      rw [intercalate_nn_single] at h
      exact Or.inr ⟨p, by simp, h⟩
    | cons q ps'' =>
      rw [intercalate_nn_cons₂] at h
      rcases List.mem_append.mp h with h' | h'
      · exact Or.inr ⟨p, by simp, h'⟩
      · rcases List.mem_cons.mp h' with rfl | h''
        · exact Or.inl rfl
        · rcases List.mem_cons.mp h'' with rfl | h'''
          · exact Or.inl rfl
          · rcases ih h''' with h4 | ⟨p', hp', hc⟩
            · exact Or.inl h4
            · exact Or.inr ⟨p', by simp [hp'], hc⟩

theorem getLast?_append_right (a b : List Char) (hb : b ≠ []) :
    (a ++ b).getLast? = b.getLast? := by
  rw [List.getLast?_append]
  cases hz : b.getLast? with
  | none => exact absurd (List.getLast?_eq_none_iff.mp hz) hb
  | some z => rfl

theorem getLast?_not_space_intercalate_nn (ps : List (List Char))
    (h : ∀ p ∈ ps, p ≠ [] ∧
      (∀ c, p.getLast? = some c → isJsSpace c = false)) :
    ∀ c, (List.intercalate ['\n', '\n'] ps).getLast? = some c →
      isJsSpace c = false := by
  induction ps with
  | nil => intro c hc; simp [List.intercalate] at hc
  | cons p ps' ih =>
    cases ps' with
    | nil =>
      intro c hc
      rw [intercalate_nn_single] at hc
      exact (h p (by simp)).2 c hc
    | cons q ps'' =>
      intro c hc
      have hne : List.intercalate ['\n', '\n'] (q :: ps'') ≠ [] :=
        intercalate_nn_ne_nil q ps'' (h q (by simp)).1
      rw [intercalate_nn_cons₂,
        getLast?_append_right p _ (by simp),
        show ('\n' :: '\n' :: List.intercalate ['\n', '\n'] (q :: ps''))
            = ['\n', '\n'] ++ List.intercalate ['\n', '\n'] (q :: ps'')
          from rfl,
        getLast?_append_right _ _ hne] at hc
      exact ih (fun p' hp' => h p' (by simp [hp'])) c hc

theorem splitNN_nn_head (rest : List Char) (h : rest.head? ≠ some '\n') :
    splitNN ('\n' :: '\n' :: rest) = [] :: splitNN rest := by
  rw [splitNN_cons_nn '\n' ('\n' :: rest) ⟨rfl, rfl⟩]
  have htw : (('\n' :: rest).takeWhile (fun x => x = '\n')) = ['\n'] := by
    rw [List.takeWhile_cons]
    rw [if_pos (by decide)]
    rw [takeWhile_nil_of_head _ rest (fun c hc => by
      simp only [decide_eq_false_iff_not]
      intro hcc
      exact h (by rw [hc, hcc]))]
  rw [htw]
  rfl

/-- Splitting distributes over a paragraph followed by an explicit
two-newline separator. -/
theorem splitNN_append_nn :
    ∀ (p rest : List Char), p ≠ [] →
      List.Chain' (fun a b => ¬(a = '\n' ∧ b = '\n')) p →
      p.getLast? ≠ some '\n' → rest.head? ≠ some '\n' →
      splitNN (p ++ '\n' :: '\n' :: rest) = p :: splitNN rest := by
  intro p
  induction p with
  | nil => intro rest h; exact absurd rfl h
  | cons c p' ih =>
    intro rest hne hch hlast hrest
    cases p' with
    | nil =>
      have hc : c ≠ '\n' := by
        intro hcc
        exact hlast (by rw [hcc]; rfl)
      rw [List.cons_append, List.nil_append,
        splitNN_cons_other c _ (by rintro ⟨rfl, -⟩; exact hc rfl),
        splitNN_nn_head rest hrest]
    | cons d p'' =>
      have hcd : ¬(c = '\n' ∧ d = '\n') := (List.chain'_cons.mp hch).1
      have hlast' : (d :: p'').getLast? ≠ some '\n' := by
        rw [show (d :: p'').getLast? = (c :: d :: p'').getLast? from
          (List.getLast?_cons_cons).symm]
        exact hlast
      rw [List.cons_append,
        splitNN_cons_other c _ (by
          rintro ⟨rfl, hhd⟩
          rw [List.cons_append, List.head?_cons, Option.some.injEq] at hhd
          exact hcd ⟨rfl, hhd⟩),
        ih rest (by simp) hch.tail hlast' hrest]

/-- Splitting the two-newline join of well-formed paragraphs recovers
exactly the paragraphs. -/
theorem splitNN_intercalate_nn :
    ∀ (ps : List (List Char)), ps ≠ [] →
      (∀ p ∈ ps, p ≠ [] ∧
        List.Chain' (fun a b => ¬(a = '\n' ∧ b = '\n')) p ∧
        p.head? ≠ some '\n' ∧ p.getLast? ≠ some '\n') →
      splitNN (List.intercalate ['\n', '\n'] ps) = ps := by
  intro ps
  induction ps with
  | nil => intro h; exact absurd rfl h
  | cons p ps' ih =>
    intro _ hps
    cases ps' with
    | nil =>
      rw [intercalate_nn_single]
      exact splitNN_single p (hps p (by simp)).1 (hps p (by simp)).2.1
    | cons q ps'' =>
      rw [intercalate_nn_cons₂]
      obtain ⟨hpne, hpch, hphd, hplast⟩ := hps p (by simp)
      have hqne := (hps q (by simp)).1
      rw [splitNN_append_nn p _ hpne hpch hplast (by
        rw [head?_intercalate_nn q ps'' hqne]
        exact (hps q (by simp)).2.2.1)]
      rw [ih (by simp) (fun p' hp' => hps p' (by simp [hp']))]

theorem chain'_RS_intercalate (ps : List (List Char))
    (h : ∀ p ∈ ps, List.Chain' (fun a b => ¬(a = ' ' ∧ b = ' ')) p) :
    List.Chain' (fun a b => ¬(a = ' ' ∧ b = ' '))
      (List.intercalate ['\n', '\n'] ps) := by
  induction ps with
  | nil => simp [List.intercalate]
  | cons p ps' ih =>
    cases ps' with
    | nil => rw [intercalate_nn_single]; exact h p (by simp)
    | cons q ps'' =>
      rw [intercalate_nn_cons₂]
      refine List.chain'_append.mpr ⟨h p (by simp), ?_, ?_⟩
      · rw [show ('\n' :: '\n' :: List.intercalate ['\n', '\n'] (q :: ps''))
            = ['\n', '\n'] ++ List.intercalate ['\n', '\n'] (q :: ps'')
          from rfl]
        refine List.chain'_append.mpr
          ⟨?_, ih (fun p' hp' => h p' (by simp [hp'])), ?_⟩
        · refine List.chain'_pair.mpr ?_
          intro hpair
          exact absurd hpair.1 (by decide)
        · intro x hx y hy
          simp only [List.getLast?_cons_cons, List.getLast?_singleton,
            Option.mem_def, Option.some.injEq] at hx
          subst hx
          intro hpair
          exact absurd hpair.1 (by decide)
      · intro x hx y hy
        simp only [List.head?_cons, Option.mem_def, Option.some.injEq] at hy
        subst hy
        intro hpair
        exact absurd hpair.2 (by decide)

theorem mSpaces_none_of_chain (l : List Char)
    (h : List.Chain' (fun a b => ¬(a = ' ' ∧ b = ' ')) l) :
    ∀ t, t <:+ l → t ≠ [] → mSpaces t = none := by
  intro t ht hne
  match t, hne with
  | c :: t', _ =>
    refine mSpaces_none_char c t' ?_
    rintro ⟨rfl, hhd⟩
    have hch := h.suffix ht
    rw [List.chain'_cons'] at hch
    exact hch.1 ' ' (by rw [Option.mem_def, hhd]) ⟨rfl, rfl⟩

theorem suffix_append_cases (t a b : List Char) (h : t <:+ a ++ b) :
    t <:+ b ∨ ∃ a', a' <:+ a ∧ a' ≠ [] ∧ t = a' ++ b := by
  obtain ⟨u, hu⟩ := h
  rcases List.append_eq_append_iff.mp hu with ⟨w, hw1, hw2⟩ | ⟨w, hw1, hw2⟩
  · by_cases hw : w = []
    · subst hw
      simp only [List.nil_append] at hw2
      exact Or.inl (hw2 ▸ List.suffix_refl b)
    · exact Or.inr ⟨w, ⟨u, hw1.symm⟩, hw, hw2⟩
  · exact Or.inl ⟨w, hw2.symm⟩

theorem singleton_suffix_getLast (c : Char) (p : List Char)
    (h : [c] <:+ p) : p.getLast? = some c := by
  obtain ⟨u, hu⟩ := h
  rw [← hu]
  exact List.getLast?_concat u

/-- The newline-collapsing matcher never fires inside the two-newline
join of trimmed paragraphs free of adjacent newlines. -/
theorem mNewlines_none_intercalate :
    ∀ (ps : List (List Char)),
      (∀ p ∈ ps, p ≠ [] ∧
        List.Chain' (fun a b => ¬(a = '\n' ∧ b = '\n')) p ∧
        p.head? ≠ some '\n' ∧ p.getLast? ≠ some '\n') →
      ∀ t, t <:+ List.intercalate ['\n', '\n'] ps → t ≠ [] →
        mNewlines t = none := by
  intro ps
  induction ps with
  | nil =>
    intro _ t ht hne
    rw [show List.intercalate ['\n', '\n'] ([] : List (List Char)) = []
      from rfl] at ht
    exact absurd (List.suffix_nil.mp ht) hne
  | cons p ps' ih =>
    cases ps' with
    | nil =>
      intro hps t ht hne
      rw [intercalate_nn_single] at ht
      match t, hne with
      | c :: t', _ =>
        refine mNewlines_none_char c t' ?_
        rintro ⟨rfl, hhd⟩
        have hch := ((hps p (by simp)).2.1).suffix ht
        rw [List.chain'_cons'] at hch
        exact hch.1 '\n' (by rw [Option.mem_def, hhd]) ⟨rfl, rfl⟩
    | cons q ps'' =>
      intro hps t ht hne
      rw [intercalate_nn_cons₂] at ht
      have hqne := (hps q (by simp)).1
      have hrhd : (List.intercalate ['\n', '\n'] (q :: ps'')).head?
          ≠ some '\n' := by
        rw [head?_intercalate_nn q ps'' hqne]
        exact (hps q (by simp)).2.2.1
      rcases suffix_append_cases t p _ ht with htb | ⟨a', ha's, ha'ne, rfl⟩
      · rcases List.suffix_cons_iff.mp htb with rfl | htb2
        · exact mNewlines_none_char2 _ hrhd
        · rcases List.suffix_cons_iff.mp htb2 with rfl | htb3
          · refine mNewlines_none_char '\n' _ ?_
            rintro ⟨-, hhd⟩
            exact hrhd hhd
          · exact ih (fun p' hp' => hps p' (by simp [hp'])) t htb3 hne
      · match a', ha'ne with
        | [c], _ =>
          refine mNewlines_none_char c _ ?_
          rintro ⟨rfl, -⟩
          exact (hps p (by simp)).2.2.2 (singleton_suffix_getLast '\n' p ha's)
        | c :: d :: a'', _ =>
          have hch := ((hps p (by simp)).2.1).suffix ha's
          have hcd : ¬(c = '\n' ∧ d = '\n') := (List.chain'_cons.mp hch).1
          rw [List.cons_append]
          refine mNewlines_none_char c _ ?_
          rintro ⟨rfl, hhd⟩
          rw [List.cons_append, List.head?_cons, Option.some.injEq] at hhd
          exact hcd ⟨rfl, hhd⟩

theorem head?_not_space_intercalate (ps : List (List Char))
    (h : ∀ p ∈ ps, p ≠ [] ∧
      (∀ c, p.head? = some c → isJsSpace c = false)) :
    ∀ c, (List.intercalate ['\n', '\n'] ps).head? = some c →
      isJsSpace c = false := by
  intro c hc
  cases ps with
  | nil => simp [List.intercalate] at hc
  | cons p ps' =>
    rw [head?_intercalate_nn p ps' (h p (by simp)).1] at hc
    exact (h p (by simp)).2 c hc

/-! ### Facts about trimming and the output's shape -/

theorem trimP_prefix_dropWhile (l : List Char) :
    trimP l <+: l.dropWhile isJsSpace := by
  have h0 : ((l.dropWhile isJsSpace).reverse).dropWhile isJsSpace <:+
      (l.dropWhile isJsSpace).reverse := List.dropWhile_suffix isJsSpace
  have := List.reverse_prefix.mpr h0
  simpa [trimP] using this

theorem trimP_within (l : List Char) : trimP l <:+: l :=
  (trimP_prefix_dropWhile l).isInfix.trans (List.dropWhile_suffix _).isInfix

theorem trimP_head_not_space (l : List Char) (c : Char) (rest : List Char)
    (h : trimP l = c :: rest) : isJsSpace c = false := by
  obtain ⟨t, ht⟩ := trimP_prefix_dropWhile l
  have hdw : l.dropWhile isJsSpace = c :: (rest ++ t) := by
    rw [← ht, h]; simp
  exact dropWhile_head_false _ l c _ hdw

theorem trimP_getLast_not_space (l : List Char) (c : Char)
    (h : (trimP l).getLast? = some c) : isJsSpace c = false := by
  unfold trimP at h
  rw [List.getLast?_reverse] at h
  cases hz : (l.dropWhile isJsSpace).reverse.dropWhile isJsSpace with
  | nil => rw [hz] at h; simp at h
  | cons y ys =>
    rw [hz] at h
    simp only [List.head?_cons, Option.some.injEq] at h
    subst h
    exact dropWhile_head_false _ _ _ ys hz

/-- A string whose first and last characters are not whitespace is fixed
by trimming. -/
theorem trimP_eq_self_of (x : List Char)
    (hh : ∀ c rest, x = c :: rest → isJsSpace c = false)
    (hl : ∀ c, x.getLast? = some c → isJsSpace c = false) : trimP x = x := by
  have h1 : x.dropWhile isJsSpace = x := by
    cases h : x with
    | nil => simp
    | cons c rest => rw [List.dropWhile_cons, hh c rest h]; simp
  have h2 : x.reverse.dropWhile isJsSpace = x.reverse := by
    cases h : x.reverse with
    | nil => simp [h]
    | cons c rest =>
      have hc : x.getLast? = some c := by
        rw [← List.head?_reverse, h]; rfl
      rw [List.dropWhile_cons, hl c hc]
      simp
  unfold trimP
  rw [h1, h2, List.reverse_reverse]

theorem trimP_idem (l : List Char) : trimP (trimP l) = trimP l :=
  trimP_eq_self_of (trimP l)
    (fun c rest h => trimP_head_not_space l c rest h)
    (fun c h => trimP_getLast_not_space l c h)

/-- Shape of the normalizer's output: every paragraph is nonempty and is
the trim of some segment of the newline split of the cleaned text. -/
theorem mem_htmlToParagraphsL (l p : List Char)
    (hp : p ∈ htmlToParagraphsL l) :
    p ≠ [] ∧ ∃ seg ∈ splitNN (cleanedText l), p = trimP seg := by
  unfold htmlToParagraphsL at hp
  by_cases h : l = []
  · simp [h] at hp
  · rw [if_neg h] at hp
    simp only [List.mem_filter, List.mem_map] at hp
    obtain ⟨⟨seg, hseg, rfl⟩, hne⟩ := hp
    exact ⟨by simpa using hne, seg, hseg, rfl⟩

theorem mOpenTag_none_of_head (p0 : Char) (pr : List Char) (c : Char)
    (rest : List Char) (h : ¬ c.toLower = p0) :
    mOpenTag (p0 :: pr) (c :: rest) = none := by
  unfold mOpenTag
  rw [matchCIList_cons_false p0 pr c rest h]
  rfl

/-- Whitespace/adjacency properties of the tail of the rewrite pipeline:
after carriage-return removal, tab replacement, space collapsing, newline
capping and trimming, the result has no two adjacent spaces and no `\r`
or `\t`. -/
theorem tail_pipeline_props (x : List Char) :
    List.Chain' (fun a b => ¬(a = ' ' ∧ b = ' '))
      (trimP (collapseNewlines (collapseSpaces (replaceTabs (stripCR x))))) ∧
    '\r' ∉ trimP (collapseNewlines (collapseSpaces (replaceTabs (stripCR x)))) ∧
    '\t' ∉ trimP (collapseNewlines (collapseSpaces (replaceTabs (stripCR x)))) := by
  have h1 : '\r' ∉ stripCR x := not_mem_stripCR x
  have h2 : '\r' ∉ replaceTabs (stripCR x) :=
    not_mem_replaceScan_of mTab [' '] '\r' mTab_rep_sub _ h1 (by decide)
  have h3 : '\t' ∉ replaceTabs (stripCR x) := not_mem_replaceTabs _
  have h4 : '\r' ∉ collapseSpaces (replaceTabs (stripCR x)) :=
    not_mem_replaceScan_of mSpaces [' '] '\r' mSpaces_rep_sub _ h2 (by decide)
  have h5 : '\t' ∉ collapseSpaces (replaceTabs (stripCR x)) :=
    not_mem_replaceScan_of mSpaces [' '] '\t' mSpaces_rep_sub _ h3 (by decide)
  have h6 : '\r' ∉ collapseNewlines (collapseSpaces (replaceTabs (stripCR x))) :=
    not_mem_replaceScan_of mNewlines ['\n'] '\r' mNewlines_rep_sub _ h4
      (by decide)
  have h7 : '\t' ∉ collapseNewlines (collapseSpaces (replaceTabs (stripCR x))) :=
    not_mem_replaceScan_of mNewlines ['\n'] '\t' mNewlines_rep_sub _ h5
      (by decide)
  have h8 := chain'_noSS_collapseSpaces (replaceTabs (stripCR x))
  have h9 := chain'_noSS_collapseNewlines _ h8
  refine ⟨?_, fun hm => h6 ((trimP_within _).subset hm),
    fun hm => h7 ((trimP_within _).subset hm)⟩
  exact h9.infix (trimP_within _)

/-- The cleaned text has no two adjacent spaces and no `\r` or `\t`. -/
theorem cleanedText_props (l : List Char) :
    List.Chain' (fun a b => ¬(a = ' ' ∧ b = ' ')) (cleanedText l) ∧
      '\r' ∉ cleanedText l ∧ '\t' ∉ cleanedText l :=
  tail_pipeline_props (collapseAmps (stripHashCodes (stripTags
    (removeOpenH (removeOpenDiv (removeOpenP (replCloseH (replCloseDiv
    (replCloseP (replBr (removeStyles (removeScripts (replGt (replLt
    (replQuot (replApos (replAmp (replNbsp l))))))))))))))))))

/-- Structural invariants of every paragraph the normalizer emits:
nonempty, trimmed, no adjacent newlines, no adjacent spaces, no carriage
returns or tabs, and non-whitespace first and last characters. -/
theorem htmlToParagraphsL_invariants (l : List Char) :
    ∀ p ∈ htmlToParagraphsL l,
      p ≠ [] ∧ trimP p = p ∧
      List.Chain' (fun a b => ¬(a = '\n' ∧ b = '\n')) p ∧
      List.Chain' (fun a b => ¬(a = ' ' ∧ b = ' ')) p ∧
      '\r' ∉ p ∧ '\t' ∉ p ∧
      (∀ c, p.head? = some c → isJsSpace c = false) ∧
      (∀ c, p.getLast? = some c → isJsSpace c = false) := by
  intro p hp
  obtain ⟨hne, seg, hseg, rfl⟩ := mem_htmlToParagraphsL l p hp
  have hTprops := cleanedText_props l
  generalize hT : cleanedText l = T at hTprops hseg
  obtain ⟨hseginf, hsegRN⟩ := splitNN_all T seg hseg
  have hpinf : trimP seg <:+: seg := trimP_within seg
  refine ⟨hne, trimP_idem seg, ?_, ?_, ?_, ?_, ?_, ?_⟩
  · exact hsegRN.infix hpinf
  · have hTC := hTprops.1
    have hsegC := hTC.infix hseginf
    exact hsegC.infix hpinf
  · exact fun hmem => hTprops.2.1 (hseginf.subset (hpinf.subset hmem))
  · exact fun hmem => hTprops.2.2 (hseginf.subset (hpinf.subset hmem))
  · intro c hc
    cases hq : trimP seg with
    | nil => rw [hq] at hc; simp at hc
    | cons c0 q' =>
      rw [hq, List.head?_cons, Option.some.injEq] at hc
      subst hc
      exact trimP_head_not_space seg c0 q' hq
  · exact fun c hc => trimP_getLast_not_space seg c hc

/-- The whole rewrite pipeline is the identity on a string that contains
no `&`, `<`, `#`, `\r` or `\t`, has no two adjacent spaces, gives the
newline-run matcher nothing to fire on, and is already trimmed. -/
theorem cleanedText_id (j : List Char)
    (hamp : '&' ∉ j) (hlt : '<' ∉ j) (hhash : '#' ∉ j)
    (hcr : '\r' ∉ j) (htab : '\t' ∉ j)
    (hSS : List.Chain' (fun a b => ¬(a = ' ' ∧ b = ' ')) j)
    (hnofire : ∀ t, t <:+ j → t ≠ [] → mNewlines t = none)
    (hhd : ∀ c, j.head? = some c → isJsSpace c = false)
    (hlast : ∀ c, j.getLast? = some c → isJsSpace c = false) :
    cleanedText j = j := by
  have hampP : ∀ c ∈ j, ¬ c = '&' := fun c hc heq => hamp (heq ▸ hc)
  have hltP : ∀ c ∈ j, ¬ c = '<' := fun c hc heq => hlt (heq ▸ hc)
  have hhashP : ∀ c ∈ j, ¬ c = '#' := fun c hc heq => hhash (heq ▸ hc)
  have hcrP : ∀ c ∈ j, ¬ c = '\r' := fun c hc heq => hcr (heq ▸ hc)
  have htabP : ∀ c ∈ j, ¬ c = '\t' := fun c hc heq => htab (heq ▸ hc)
  have e1 : replNbsp j = j := replaceScan_eq_self_of_headchar _ (fun c => c = '&')
    (fun c rest hc => mLit_none_of_head '&' _ _ c rest
      (toLower_ne_of_ne c '&' (by decide) hc)) j hampP
  have e2 : replAmp j = j := replaceScan_eq_self_of_headchar _ (fun c => c = '&')
    (fun c rest hc => mLit_none_of_head '&' _ _ c rest
      (toLower_ne_of_ne c '&' (by decide) hc)) j hampP
  have e3 : replApos j = j := replaceScan_eq_self_of_headchar _ (fun c => c = '&')
    (fun c rest hc => mLit_none_of_head '&' _ _ c rest
      (toLower_ne_of_ne c '&' (by decide) hc)) j hampP
  have e4 : replQuot j = j := replaceScan_eq_self_of_headchar _ (fun c => c = '&')
    (fun c rest hc => mLit_none_of_head '&' _ _ c rest
      (toLower_ne_of_ne c '&' (by decide) hc)) j hampP
  have e5 : replLt j = j := replaceScan_eq_self_of_headchar _ (fun c => c = '&')
    (fun c rest hc => mLit_none_of_head '&' _ _ c rest
      (toLower_ne_of_ne c '&' (by decide) hc)) j hampP
  have e6 : replGt j = j := replaceScan_eq_self_of_headchar _ (fun c => c = '&')
    (fun c rest hc => mLit_none_of_head '&' _ _ c rest
      (toLower_ne_of_ne c '&' (by decide) hc)) j hampP
  have e7 : removeScripts j = j := replaceScan_eq_self_of_headchar _
    (fun c => c = '<')
    (fun c rest hc => mBlock_none_of_head '<' _ _ c rest
      (toLower_ne_of_ne c '<' (by decide) hc)) j hltP
  have e8 : removeStyles j = j := replaceScan_eq_self_of_headchar _
    (fun c => c = '<')
    (fun c rest hc => mBlock_none_of_head '<' _ _ c rest
      (toLower_ne_of_ne c '<' (by decide) hc)) j hltP
  have e9 : replBr j = j := replaceScan_eq_self_of_headchar _ (fun c => c = '<')
    (fun c rest hc => mBr_none_of_head c rest
      (toLower_ne_of_ne c '<' (by decide) hc)) j hltP
  have e10 : replCloseP j = j := replaceScan_eq_self_of_headchar _
    (fun c => c = '<')
    (fun c rest hc => mLit_none_of_head '<' _ _ c rest
      (toLower_ne_of_ne c '<' (by decide) hc)) j hltP
  have e11 : replCloseDiv j = j := replaceScan_eq_self_of_headchar _
    (fun c => c = '<')
    (fun c rest hc => mLit_none_of_head '<' _ _ c rest
      (toLower_ne_of_ne c '<' (by decide) hc)) j hltP
  have e12 : replCloseH j = j := replaceScan_eq_self_of_headchar _
    (fun c => c = '<')
    (fun c rest hc => mCloseH_none_of_head c rest hc) j hltP
  have e13 : removeOpenP j = j := replaceScan_eq_self_of_headchar _
    (fun c => c = '<')
    (fun c rest hc => mOpenTag_none_of_head '<' _ c rest
      (toLower_ne_of_ne c '<' (by decide) hc)) j hltP
  have e14 : removeOpenDiv j = j := replaceScan_eq_self_of_headchar _
    (fun c => c = '<')
    (fun c rest hc => mOpenTag_none_of_head '<' _ c rest
      (toLower_ne_of_ne c '<' (by decide) hc)) j hltP
  have e15 : removeOpenH j = j := replaceScan_eq_self_of_headchar _
    (fun c => c = '<')
    (fun c rest hc => mOpenH_none_of_head c rest hc) j hltP
  have e16 : stripTags j = j := replaceScan_eq_self_of_headchar _
    (fun c => c = '<')
    (fun c rest hc => mTag_none_of_head c rest hc) j hltP
  have e17 : stripHashCodes j = j := replaceScan_eq_self_of_headchar _
    (fun c => c = '#')
    (fun c rest hc => mHash_none_of_head c rest hc) j hhashP
  have e18 : collapseAmps j = j := replaceScan_eq_self_of_headchar _
    (fun c => c = '&')
    (fun c rest hc => mAmps_none_of_head c rest hc) j hampP
  have e19 : stripCR j = j := replaceScan_eq_self_of_headchar _
    (fun c => c = '\r')
    (fun c rest hc => mCR_none_of_head c rest hc) j hcrP
  have e20 : replaceTabs j = j := replaceScan_eq_self_of_headchar _
    (fun c => c = '\t')
    (fun c rest hc => mTab_none_of_head c rest hc) j htabP
  have e21 : collapseSpaces j = j :=
    replaceScan_eq_self mSpaces j (mSpaces_none_of_chain j hSS)
  have e22 : collapseNewlines j = j :=
    replaceScan_eq_self mNewlines j hnofire
  have e23 : trimP j = j := trimP_eq_self_of j
    (fun c rest heq => hhd c (by rw [heq]; rfl)) hlast
  simp only [cleanedText]
  rw [e1, e2, e3, e4, e5, e6, e7, e8, e9, e10, e11, e12, e13, e14, e15,
    e16, e17, e18, e19, e20, e21, e22]
  exact e23

/-- List-level guarded idempotence: re-normalizing the two-newline join of
the normalizer's output reproduces the output, provided no paragraph
contains `&`, `<` or `#`. -/
theorem htmlToParagraphsL_join (l : List Char)
    (h : ∀ p ∈ htmlToParagraphsL l, ∀ c ∈ p, c ≠ '&' ∧ c ≠ '<' ∧ c ≠ '#') :
    htmlToParagraphsL (List.intercalate ['\n', '\n'] (htmlToParagraphsL l))
      = htmlToParagraphsL l := by
  have hinv := htmlToParagraphsL_invariants l
  cases hps0 : htmlToParagraphsL l with
  | nil => rfl
  | cons p ps' =>
    rw [hps0] at hinv h
    have hp0ne : p ≠ [] := (hinv p (by simp)).1
    have hjne : List.intercalate ['\n', '\n'] (p :: ps') ≠ [] :=
      intercalate_nn_ne_nil p ps' hp0ne
    have hRNbundle : ∀ q ∈ p :: ps', q ≠ [] ∧
        List.Chain' (fun a b => ¬(a = '\n' ∧ b = '\n')) q ∧
        q.head? ≠ some '\n' ∧ q.getLast? ≠ some '\n' := by
      intro q hq
      obtain ⟨hne, -, hRN, -, -, -, hhd, hlast⟩ := hinv q hq
      refine ⟨hne, hRN, ?_, ?_⟩
      · intro hcontra
        have := hhd '\n' hcontra
        simp [isJsSpace] at this
      · intro hcontra
        have := hlast '\n' hcontra
        simp [isJsSpace] at this
    have hnomem : ∀ (x : Char), x ≠ '\n' →
        (∀ q ∈ p :: ps', x ∉ q) →
        x ∉ List.intercalate ['\n', '\n'] (p :: ps') := by
      intro x hx hq hmem
      rcases mem_intercalate_nn x (p :: ps') hmem with h' | ⟨q, hq', hc⟩
      · exact hx h'
      · exact hq q hq' hc
    have hamp : '&' ∉ List.intercalate ['\n', '\n'] (p :: ps') :=
      hnomem '&' (by decide)
        (fun q hq hc => (h q hq '&' hc).1 rfl)
    have hlt : '<' ∉ List.intercalate ['\n', '\n'] (p :: ps') :=
      hnomem '<' (by decide)
        (fun q hq hc => (h q hq '<' hc).2.1 rfl)
    have hhash : '#' ∉ List.intercalate ['\n', '\n'] (p :: ps') :=
      hnomem '#' (by decide)
        (fun q hq hc => (h q hq '#' hc).2.2 rfl)
    have hcr : '\r' ∉ List.intercalate ['\n', '\n'] (p :: ps') :=
      hnomem '\r' (by decide)
        (fun q hq hc => (hinv q hq).2.2.2.2.1 hc)
    have htab : '\t' ∉ List.intercalate ['\n', '\n'] (p :: ps') :=
      hnomem '\t' (by decide)
        (fun q hq hc => (hinv q hq).2.2.2.2.2.1 hc)
    have hSS : List.Chain' (fun a b => ¬(a = ' ' ∧ b = ' '))
        (List.intercalate ['\n', '\n'] (p :: ps')) :=
      chain'_RS_intercalate (p :: ps') (fun q hq => (hinv q hq).2.2.2.1)
    have hnofire := mNewlines_none_intercalate (p :: ps') hRNbundle
    have hhd : ∀ c, (List.intercalate ['\n', '\n'] (p :: ps')).head?
        = some c → isJsSpace c = false :=
      head?_not_space_intercalate (p :: ps')
        (fun q hq => ⟨(hinv q hq).1, (hinv q hq).2.2.2.2.2.2.1⟩)
    have hlast : ∀ c, (List.intercalate ['\n', '\n'] (p :: ps')).getLast?
        = some c → isJsSpace c = false :=
      getLast?_not_space_intercalate_nn (p :: ps')
        (fun q hq => ⟨(hinv q hq).1, (hinv q hq).2.2.2.2.2.2.2⟩)
    unfold htmlToParagraphsL
    rw [if_neg hjne]
    rw [cleanedText_id _ hamp hlt hhash hcr htab hSS hnofire hhd hlast]
    rw [splitNN_intercalate_nn (p :: ps') (by simp) hRNbundle]
    have hmapid : ∀ q ∈ p :: ps', trimP q = id q :=
      fun q hq => (hinv q hq).2.1
    rw [List.map_congr_left hmapid, List.map_id]
    refine List.filter_eq_self.mpr ?_
    intro q hq
    simpa using (hinv q hq).1

/-! ### Claims -/

/-- C1: the normalizer is total over its input domain: undefined/missing
input and the empty string yield the empty sequence, and every string
input evaluates to a defined paragraph list — the embedding is a total
function, mirroring the absence of any exceptional path in the source. -/
theorem claim_C1_normalize_total :
    htmlToParagraphsOpt none = [] ∧ htmlToParagraphsOpt (some "") = [] ∧
    ∀ s : String, htmlToParagraphsOpt (some s) = htmlToParagraphs s :=
  ⟨by decide, by decide, fun _ => rfl⟩

/-- C2: every complete `<script ...>...</script>` or `<style ...>...</style>`
block is deleted whole by the dedicated removal stage — content included,
even content holding `<` or tag-like text — provided only the content has
no case-insensitive occurrence of the corresponding closing tag (the point
where the lazy regex stops); the stage runs before all tag rewriting, and
on the spec's example the script content never reaches the output. -/
theorem claim_C2_script_style_removed :
    (∀ attrs code w : List Char,
      (∀ c ∈ attrs, c ≠ '>') → findCIidx (chars "</script>") code = none →
      removeScripts (chars "<script" ++ attrs ++ '>' :: code ++
        chars "</script>" ++ w) = removeScripts w) ∧
    (∀ attrs code w : List Char,
      (∀ c ∈ attrs, c ≠ '>') → findCIidx (chars "</style>") code = none →
      removeStyles (chars "<style" ++ attrs ++ '>' :: code ++
        chars "</style>" ++ w) = removeStyles w) ∧
    htmlToParagraphs "<script>evil()</script><p>Safe</p>" = ["Safe"] :=
  ⟨removeScripts_block, removeStyles_block, by decide⟩

theorem claim_C2_witness :
    removeScripts (chars "<script" ++ [] ++ '>' :: chars "if(a<b)x=y;" ++
      chars "</script>" ++ chars "<p>Safe</p>")
      = removeScripts (chars "<p>Safe</p>") :=
  claim_C2_script_style_removed.1 [] (chars "if(a<b)x=y;") (chars "<p>Safe</p>")
    (by decide) (by decide)

/-- C3 as stated is false: a line-break tag carrying an attribute is not
converted into a newline — it reaches the generic tag-stripping stage and
is deleted without replacement. -/
theorem claim_C3_counterexample :
    htmlToParagraphs "A<br class=x>B" = ["AB"] ∧
    htmlToParagraphs "A<br class=x>B" ≠ ["A\nB"] := by
  decide

/-- C3 (amended): every attribute-free line-break tag — `<br>` with
optional whitespace and an optional self-closing slash, in any letter
case — is converted into a single newline by the line-break stage, which
the pipeline runs before generic tag stripping; a line-break tag carrying
attributes is instead deleted by generic tag stripping. -/
theorem claim_C3_amended :
    (∀ (b r : Char) (ws rest : List Char) (sl : Bool),
      b.toLower = 'b' → r.toLower = 'r' → (∀ c ∈ ws, isJsSpace c = true) →
      replBr ('<' :: b :: r ::
          (ws ++ (if sl then ['/', '>'] else ['>']) ++ rest))
        = '\n' :: replBr rest) ∧
    htmlToParagraphs "Line1<br>Line2" = ["Line1\nLine2"] ∧
    htmlToParagraphs "Line1<BR />Line2" = ["Line1\nLine2"] ∧
    htmlToParagraphs "A<br class=x>B" = ["AB"] :=
  ⟨fun b r ws rest sl hb hr hws =>
    replBr_tag b r ws _ rest hb hr hws (by cases sl <;> simp),
   by decide, by decide, by decide⟩

theorem claim_C3_witness :
    replBr ('<' :: 'b' :: 'r' ::
        (([] : List Char) ++ (if false then ['/', '>'] else ['>']) ++ chars "xy"))
      = '\n' :: replBr (chars "xy") :=
  claim_C3_amended.1 'b' 'r' [] (chars "xy") false (by decide) (by decide)
    (by decide)

/-- C4 as stated is false: normalizing `"&l<x>t;"` yields the paragraph
`"&lt;"` (tag stripping glues an entity together), and re-normalizing the
joined output decodes that entity, yielding `"<"` instead. -/
theorem claim_C4_counterexample :
    htmlToParagraphs "&l<x>t;" = ["&lt;"] ∧
    htmlToParagraphs (joinParagraphs "&l<x>t;") = ["<"] ∧
    htmlToParagraphs (joinParagraphs "&l<x>t;") ≠ htmlToParagraphs "&l<x>t;" := by
  decide

/-- C4 (amended): re-normalizing the joined output reproduces the
paragraph sequence for every input whose output paragraphs contain no
`&`, `<` or `#` characters — the characters whose re-interpretation as
entity or tag material the counterexample exhibits. -/
theorem claim_C4_amended (raw : String)
    (h : ∀ p ∈ htmlToParagraphs raw, ∀ c ∈ p.data,
      c ≠ '&' ∧ c ≠ '<' ∧ c ≠ '#') :
    htmlToParagraphs (joinParagraphs raw) = htmlToParagraphs raw := by
  have hlist : ∀ q ∈ htmlToParagraphsL raw.data, ∀ c ∈ q,
      c ≠ '&' ∧ c ≠ '<' ∧ c ≠ '#' := by
    intro q hq c hc
    refine h (String.mk q) ?_ c hc
    unfold htmlToParagraphs
    exact List.mem_map.mpr ⟨q, hq, rfl⟩
  have hdata : (joinParagraphs raw).data =
      List.intercalate ['\n', '\n'] (htmlToParagraphsL raw.data) := by
    unfold joinParagraphs htmlToParagraphs
    simp only [List.map_map]
    rw [show (String.data ∘ fun p : List Char => String.mk p) = id from rfl,
      List.map_id]
  unfold htmlToParagraphs
  rw [hdata, htmlToParagraphsL_join raw.data hlist]

theorem claim_C4_witness :
    (∀ p ∈ htmlToParagraphs "hello\n\nworld", ∀ c ∈ p.data,
      c ≠ '&' ∧ c ≠ '<' ∧ c ≠ '#') ∧
    htmlToParagraphs (joinParagraphs "hello\n\nworld")
      = htmlToParagraphs "hello\n\nworld" :=
  ⟨by decide, claim_C4_amended "hello\n\nworld" (by decide)⟩

/-- C5: `joinParagraphs` equals the normalizer's paragraphs concatenated
with the two-newline separator (the spec-side definition
`specJoinParagraphs`), with no additional transformation. -/
theorem claim_C5_join_spec (raw : String) :
    joinParagraphs raw =
      String.mk (specJoinParagraphs ((htmlToParagraphs raw).map String.data)) := by
  unfold joinParagraphs
  rw [intercalate_nn_eq_specJoin]

/-- C6: for all inputs, every element of the output sequence is a
non-empty string and stays non-empty after trimming again. -/
theorem claim_C6_output_nonempty (s : String) (p : String)
    (hp : p ∈ htmlToParagraphs s) :
    p ≠ "" ∧ String.mk (trimP p.data) ≠ "" := by
  unfold htmlToParagraphs at hp
  simp only [List.mem_map] at hp
  obtain ⟨q, hq, rfl⟩ := hp
  obtain ⟨hne, seg, hseg, rfl⟩ := mem_htmlToParagraphsL s.data q hq
  refine ⟨?_, ?_⟩
  · intro hcontra
    exact hne (by simpa using congrArg String.data hcontra)
  · intro hcontra
    have := congrArg String.data hcontra
    simp only [trimP_idem] at this
    exact hne (by simpa using this)

theorem claim_C6_witness :
    ("hi" : String) ∈ htmlToParagraphs "hi" ∧
    (("hi" : String) ≠ "" ∧ String.mk (trimP ("hi" : String).data) ≠ "") :=
  ⟨by decide, claim_C6_output_nonempty "hi" "hi" (by decide)⟩

/-- C7: each paragraph-close tag becomes a paragraph boundary and the
split preserves source order. -/
theorem claim_C7_two_paragraphs :
    htmlToParagraphs "<p>A</p><p>B</p>" = ["A", "B"] := by
  decide

/-- C8: each non-breaking-space entity decodes to one literal space and
the later whitespace stage collapses the run. -/
theorem claim_C8_nbsp_collapse :
    htmlToParagraphs "A&nbsp;&nbsp;B" = ["A B"] := by
  decide

/-- C9: the hash-digit artifact is removed before whitespace collapse, so
the leftover double space collapses to one. -/
theorem claim_C9_hash_artifact :
    htmlToParagraphs "Text #12345 more" = ["Text more"] := by
  decide

/-- C10: a `<` with no later `>` is not removed by generic tag stripping:
the stage copies it and everything after it verbatim, and on the spec's
example it appears literally in the output. -/
theorem claim_C10_unterminated_lt :
    htmlToParagraphs "a < b" = ["a < b"] ∧
    ∀ u v : List Char, (∀ c ∈ v, c ≠ '>') →
      stripTags (u ++ '<' :: v) = stripTags u ++ '<' :: v := by
  refine ⟨by decide, fun u v hv => ?_⟩
  unfold stripTags
  exact replaceScan_append_confined mTag u ('<' :: v)
    (fun t ht hne => mTag_none_of_suffix_lt v t hv ht hne)
    (fun u' hu' hne => mTag_stable u' ('<' :: v)
      (fun c hc => by
        rcases List.mem_cons.mp hc with rfl | hc'
        · decide
        · exact hv c hc') hne)

theorem claim_C10_witness :
    stripTags (chars "x<y>" ++ '<' :: chars "ab")
      = stripTags (chars "x<y>") ++ '<' :: chars "ab" :=
  claim_C10_unterminated_lt.2 (chars "x<y>") (chars "ab") (by decide)

end Koln
